import Mathlib

/-!
Verification of the cookRAG in-memory recipe knowledge-graph engine
(`graph_models.py`, `graph_storage.py`, `recommendation_engine.py`).

Python dictionaries are modelled as insertion-ordered association lists
(`List (key × value)`): lookup returns the value of the first matching key,
update replaces the first matching key in place, insertion of a new key
appends.  Python sets are modelled as duplicate-free lists (membership is
what matters; iteration order of a Python set is unspecified, so any order
is a legitimate refinement).  Python `float` is modelled as `ℚ`; the one
truly transcendental score (`min(ln(c+1)/5, 1)` in
`_calculate_pairing_score`) is kept as an abstract parameter.
-/

namespace GraphRAG

/-- Python dict lookup: value of the first entry whose key equals `k`. -/
def dGet {κ α : Type} [BEq κ] (d : List (κ × α)) (k : κ) : Option α :=
  (d.find? (fun p => p.1 == k)).map (fun p => p.2)

/-- Python `d.get(k, default)` / `defaultdict` read. -/
def dGetD {κ α : Type} [BEq κ] (d : List (κ × α)) (k : κ) (v₀ : α) : α :=
  (dGet d k).getD v₀

/-- Python dict assignment `d[k] = v`: replace the first entry with key `k`
in place, or append a new entry if the key is absent. -/
def dSet {κ α : Type} [BEq κ] : List (κ × α) → κ → α → List (κ × α)
  | [], k, v => [(k, v)]
  | p :: rest, k, v => if p.1 == k then (k, v) :: rest else p :: dSet rest k v

/-- Python membership `k in d`. -/
def dHas {κ α : Type} [BEq κ] (d : List (κ × α)) (k : κ) : Bool :=
  (dGet d k).isSome

/-- Python `set.add` on a set modelled as a duplicate-free list. -/
def sAdd (s : List String) (x : String) : List String :=
  if s.contains x then s else s ++ [x]

/-- Python `set.update(xs)`. -/
def sUnion (s : List String) (xs : List String) : List String :=
  xs.foldl sAdd s

/-- ASCII lowering of a string, modelling Python `str.lower()`
(character-by-character; identical on the ASCII and CJK text this system
stores). -/
def pyLower (s : String) : String := ⟨s.data.map Char.toLower⟩

/-- Auxiliary for `pyWords`: split a character list on whitespace runs,
accumulating the current (reversed) word. -/
def wordsAux : List Char → List Char → List (List Char)
  | [], cur => if cur.isEmpty then [] else [cur.reverse]
  | c :: rest, cur =>
    if c.isWhitespace then
      if cur.isEmpty then wordsAux rest [] else cur.reverse :: wordsAux rest []
    else wordsAux rest (c :: cur)

/-- Python `str.split()` with no argument: whitespace-delimited tokens,
empties dropped. -/
def pyWords (s : String) : List String := (wordsAux s.data []).map (fun l => ⟨l⟩)

/-- Does the character list start with the given leading segment? -/
def leadMatch : List Char → List Char → Bool
  | _, [] => true
  | [], _ :: _ => false
  | a :: as, b :: bs => a == b && leadMatch as bs

/-- Python substring test `needle in hay` on character lists. -/
def seqContains : List Char → List Char → Bool
  | [], needle => needle.isEmpty
  | h :: t, needle => leadMatch (h :: t) needle || seqContains t needle

/-- Python substring test `needle in hay` on strings. -/
def strContains (hay needle : String) : Bool := seqContains hay.data needle.data

/-- Stable insertion of `x` before the first element `y` with `le x y`. -/
def stableInsert {α : Type} (le : α → α → Bool) (x : α) : List α → List α
  | [] => [x]
  | y :: ys => if le x y then x :: y :: ys else y :: stableInsert le x ys

/-- Stable sort by a Boolean comparator.  Python `list.sort` is stable and
a stable sort's output is unique for a total comparator, so this models
every `sort(key=..., reverse=True)` in the source exactly. -/
def stableSort {α : Type} (le : α → α → Bool) : List α → List α
  | [] => []
  | x :: xs => stableInsert le x (stableSort le xs)

/-- Node type enumeration (`NodeType` in `graph_models.py`). -/
inductive NodeType : Type
  | dish
  | ingredient
  | cooking_method
  | category
  | tool
  | seasoning
deriving DecidableEq, Fintype

/-- Edge type enumeration (`EdgeType` in `graph_models.py`). -/
inductive EdgeType : Type
  | contains
  | uses_method
  | belongs_to
  | pairs_with
  | similar_to
  | requires_tool
  | uses_seasoning
deriving DecidableEq

/-- Graph node (`GraphNode`).  The open `properties` mapping stores
JSON-serializable values; they are carried opaquely as strings. -/
structure GraphNode : Type where
  id : String
  node_type : NodeType
  name : String
  properties : List (String × String)
deriving DecidableEq

/-- Graph edge (`GraphEdge`); `weight` is a Python float, modelled as `ℚ`. -/
structure GraphEdge : Type where
  source_id : String
  target_id : String
  edge_type : EdgeType
  weight : ℚ
  properties : List (String × String)
deriving DecidableEq

/-- Edge identity (`GraphEdge.__eq__`): equality of (source, target, type)
only; weight and properties are ignored. -/
def edgeKeyEq (a b : GraphEdge) : Bool :=
  a.source_id == b.source_id && a.target_id == b.target_id &&
    decide (a.edge_type = b.edge_type)

/-- The graph container (`RecipeGraph`): node dict, ordered edge list, and
the forward adjacency index (node id → neighbor id → edges). -/
structure RecipeGraph : Type where
  nodes : List (String × GraphNode)
  edges : List GraphEdge
  adjacency_list : List (String × List (String × List GraphEdge))
deriving DecidableEq

/-- The empty graph (`RecipeGraph.__init__`). -/
def emptyGraph : RecipeGraph := ⟨[], [], []⟩

/-- `RecipeGraph.add_node`: insert/overwrite by id; create an empty
adjacency entry if absent. -/
def add_node (g : RecipeGraph) (n : GraphNode) : RecipeGraph :=
  { nodes := dSet g.nodes n.id n
    edges := g.edges
    adjacency_list :=
      if dHas g.adjacency_list n.id then g.adjacency_list
      else dSet g.adjacency_list n.id [] }

/-- Python `edge not in self.edges` (list membership via `GraphEdge.__eq__`). -/
def edgeMem (es : List GraphEdge) (e : GraphEdge) : Bool :=
  es.any (fun x => edgeKeyEq x e)

/-- `RecipeGraph.add_edge`: insert iff no edge with the same
(source, target, type) exists; append to the forward adjacency index. -/
def add_edge (g : RecipeGraph) (e : GraphEdge) : RecipeGraph :=
  if edgeMem g.edges e then g
  else
    let adj :=
      if dHas g.adjacency_list e.source_id then g.adjacency_list
      else dSet g.adjacency_list e.source_id []
    let inner := dGetD adj e.source_id []
    let inner :=
      if dHas inner e.target_id then inner else dSet inner e.target_id []
    let inner := dSet inner e.target_id (dGetD inner e.target_id [] ++ [e])
    { nodes := g.nodes
      edges := g.edges ++ [e]
      adjacency_list := dSet adj e.source_id inner }

/-- `RecipeGraph.get_node`. -/
def get_node (g : RecipeGraph) (node_id : String) : Option GraphNode :=
  dGet g.nodes node_id

/-- Does the parallel-edge list satisfy the optional edge-type filter
(`edge_type is None or any(edge.edge_type == edge_type ...)`)? -/
def typeFilter (edge_type : Option EdgeType) (es : List GraphEdge) : Bool :=
  match edge_type with
  | none => true
  | some t => es.any (fun e => decide (e.edge_type = t))

/-- `RecipeGraph.get_neighbors`: outgoing scan over the node's adjacency
entry, then incoming scan over all adjacency entries; results are appended
to a plain list (the source performs no deduplication). -/
def get_neighbors (g : RecipeGraph) (node_id : String)
    (edge_type : Option EdgeType) : List GraphNode :=
  let outN := (dGetD g.adjacency_list node_id []).filterMap
    (fun p => if typeFilter edge_type p.2 then get_node g p.1 else none)
  let inN := g.adjacency_list.filterMap
    (fun q =>
      match dGet q.2 node_id with
      | none => none
      | some es => if typeFilter edge_type es then get_node g q.1 else none)
  outN ++ inN

/-- `RecipeGraph.get_edges`: edges out of `source_id`, optionally filtered
by target and edge type. -/
def get_edges (g : RecipeGraph) (source_id : String) (target_id : Option String)
    (edge_type : Option EdgeType) : List GraphEdge :=
  match dGet g.adjacency_list source_id with
  | none => []
  | some targets =>
    targets.flatMap (fun p =>
      if (match target_id with | none => true | some t => p.1 == t) then
        p.2.filter (fun e =>
          match edge_type with
          | none => true
          | some t => decide (e.edge_type = t))
      else [])

/-- One exported node record of `RecipeGraph.to_dict`. -/
structure NodeDict : Type where
  id : String
  type : NodeType
  name : String
  properties : List (String × String)
deriving DecidableEq

/-- One exported edge record of `RecipeGraph.to_dict`. -/
structure EdgeDict : Type where
  source : String
  target : String
  type : EdgeType
  weight : ℚ
  properties : List (String × String)
deriving DecidableEq

/-- The structured export of `RecipeGraph.to_dict` (what `save_to_file`
writes as JSON). -/
structure GraphDict : Type where
  nodes : List NodeDict
  edges : List EdgeDict
deriving DecidableEq

/-- `RecipeGraph.to_dict`: ordered list of node records (dict values in
insertion order) and of edge records. -/
def to_dict (g : RecipeGraph) : GraphDict :=
  { nodes := g.nodes.map (fun p => ⟨p.2.id, p.2.node_type, p.2.name, p.2.properties⟩)
    edges := g.edges.map (fun e => ⟨e.source_id, e.target_id, e.edge_type, e.weight, e.properties⟩) }

/-- `RecipeGraph.load_from_file`, applied to the parsed JSON content (the
`GraphDict` that `save_to_file` wrote): rebuild via `add_node`/`add_edge`. -/
def load_from_dict (d : GraphDict) : RecipeGraph :=
  let g := d.nodes.foldl
    (fun g nd => add_node g ⟨nd.id, nd.type, nd.name, nd.properties⟩) emptyGraph
  d.edges.foldl
    (fun g ed => add_edge g ⟨ed.source, ed.target, ed.type, ed.weight, ed.properties⟩) g

/-- Concrete graph for C3: nodes a and b with one edge in each direction,
so b is both an outgoing and an incoming neighbor of a. -/
def c3Graph : RecipeGraph :=
  add_edge (add_edge (add_node (add_node emptyGraph ⟨"a", .ingredient, "alpha", []⟩)
    ⟨"b", .ingredient, "beta", []⟩)
    ⟨"a", "b", .pairs_with, 1, []⟩) ⟨"b", "a", .pairs_with, 1, []⟩

/-- The derived indices held by `GraphStorage` in `graph_storage.py`:
name index (token → node-id set), type index, and the reverse adjacency
index mirroring the graph's forward one. -/
structure GraphStorage : Type where
  name_index : List (String × List String)
  type_index : List (NodeType × List String)
  reverse_adjacency : List (String × List (String × List GraphEdge))

/-- One `defaultdict(set)` update `d[k].add(x)` of the name index. -/
def ndxAdd (d : List (String × List String)) (k x : String) :
    List (String × List String) :=
  dSet d k (sAdd (dGetD d k []) x)

/-- The name-index part of `GraphStorage._build_indexes`: for every node,
index the full name, then every whitespace token of length > 1. -/
def build_name_index (nodes : List GraphNode) : List (String × List String) :=
  nodes.foldl (fun d n =>
    (pyWords n.name).foldl
      (fun d w => if 1 < w.length then ndxAdd d w n.id else d)
      (ndxAdd d n.name n.id)) []

/-- The type-index part of `GraphStorage._build_indexes`. -/
def build_type_index (nodes : List GraphNode) : List (NodeType × List String) :=
  nodes.foldl (fun d n => dSet d n.node_type (sAdd (dGetD d n.node_type []) n.id)) []

/-- The reverse-adjacency part of `GraphStorage._build_indexes`. -/
def build_reverse_adjacency (edges : List GraphEdge) :
    List (String × List (String × List GraphEdge)) :=
  edges.foldl (fun d e =>
    dSet d e.target_id
      (dSet (dGetD d e.target_id []) e.source_id
        (dGetD (dGetD d e.target_id []) e.source_id [] ++ [e]))) []

/-- `GraphStorage._build_indexes` over a graph's node values and edges. -/
def build_indexes (g : RecipeGraph) : GraphStorage :=
  { name_index := build_name_index (g.nodes.map Prod.snd)
    type_index := build_type_index (g.nodes.map Prod.snd)
    reverse_adjacency := build_reverse_adjacency g.edges }

/-- `GraphQueryEngine._calculate_name_similarity`: 1.0 on exact
case-insensitive match, 0.8 on substring match, otherwise the Jaccard
overlap of the two character sets. -/
def _calculate_name_similarity (query name : String) : ℚ :=
  let ql := pyLower query
  let nl := pyLower name
  if ql = nl then 1
  else if strContains nl ql then mkRat 8 10
  else
    let qs := ql.data.dedup
    let ns := nl.data.dedup
    let inter := (qs.filter (fun c => ns.contains c)).length
    let un := (qs ++ ns.filter (fun c => ¬ qs.contains c)).length
    if 0 < un then mkRat inter un else 0

/-- The candidate set of `GraphQueryEngine.search_nodes`: union of the
name-index entries whose key contains the query case-insensitively. -/
def search_candidates (name_index : List (String × List String))
    (query : String) : List String :=
  name_index.foldl (fun cand p =>
    if strContains (pyLower p.1) (pyLower query) then sUnion cand p.2 else cand) []

/-- `GraphQueryEngine.search_nodes`: candidates from the name index,
optional type-index intersection, node lookup, stable sort by name
similarity descending, truncation to `limit`. -/
def search_nodes (g : RecipeGraph) (st : GraphStorage) (query : String)
    (node_type : Option NodeType) (limit : Nat) : List GraphNode :=
  let candidates := search_candidates st.name_index query
  let candidates :=
    match node_type with
    | none => candidates
    | some t => candidates.filter (fun nid => (dGetD st.type_index t []).contains nid)
  let nodes := candidates.filterMap (fun nid => get_node g nid)
  (stableSort (fun a b =>
    decide (_calculate_name_similarity query b.name ≤
            _calculate_name_similarity query a.name)) nodes).take limit

/-- Concrete one-node graph for the C6 witness. -/
def c6Graph : RecipeGraph := add_node emptyGraph ⟨"dish_ts", .dish, "tomato soup", []⟩

/-- `defaultdict(int)` increment `d[k] += 1`. -/
def dIncr (d : List (String × Nat)) (k : String) : List (String × Nat) :=
  dSet d k (dGetD d k 0 + 1)

/-- Descending comparator on the numeric second component, as used by the
Python `list.sort(key=lambda x: x[1], reverse=True)` calls (Python's sort
is stable, as is `List.mergeSort`). -/
def byCountDesc (a b : GraphNode × Nat) : Bool := decide (b.2 ≤ a.2)

/-- Descending comparator on the score second component. -/
def byScoreDesc (a b : GraphNode × ℚ) : Bool := decide (b.2 ≤ a.2)

/-- `GraphQueryEngine.find_ingredient_pairs`: resolve the ingredient,
count co-occurring ingredients over shared dishes, keep counts ≥
`min_cooccurrence`, sort descending. -/
def find_ingredient_pairs (g : RecipeGraph) (st : GraphStorage)
    (ingredient_name : String) (min_cooccurrence : Nat) : List (GraphNode × Nat) :=
  let ingredient_nodes := search_nodes g st ingredient_name (some .ingredient) 10
  if ingredient_nodes.isEmpty then []
  else
    let pair_counts := ingredient_nodes.foldl (fun pc ing =>
      (get_neighbors g ing.id (some .contains)).foldl (fun pc dish =>
        (get_neighbors g dish.id (some .contains)).foldl (fun pc other =>
          if other.id ≠ ing.id then dIncr pc other.id else pc) pc) pc) []
    let pairs := pair_counts.filterMap (fun pr =>
      if min_cooccurrence ≤ pr.2 then
        (get_node g pr.1).map (fun node => (node, pr.2))
      else none)
    stableSort byCountDesc pairs

/-- `GraphQueryEngine.find_dishes_by_ingredients`. -/
def find_dishes_by_ingredients (g : RecipeGraph) (st : GraphStorage)
    (ingredient_names : List String) (require_all : Bool) : List (GraphNode × Nat) :=
  let ingredient_nodes := ingredient_names.foldl
    (fun acc nm => acc ++ search_nodes g st nm (some .ingredient) 10) []
  if ingredient_nodes.isEmpty then []
  else
    let dish_scores := ingredient_nodes.foldl (fun ds ing =>
      (get_neighbors g ing.id (some .contains)).foldl
        (fun ds dish => dIncr ds dish.id) ds) []
    let results := dish_scores.filterMap (fun pr =>
      if require_all && decide (pr.2 < ingredient_names.length) then none
      else (get_node g pr.1).map (fun dish => (dish, pr.2)))
    stableSort byCountDesc results

/-- `GraphQueryEngine.find_similar_dishes`: follow SIMILAR_TO edges from
each resolved dish, sort by edge weight descending, truncate. -/
def find_similar_dishes (g : RecipeGraph) (st : GraphStorage)
    (dish_name : String) (limit : Nat) : List (GraphNode × ℚ) :=
  let dish_nodes := search_nodes g st dish_name (some .dish) 10
  if dish_nodes.isEmpty then []
  else
    let similar_dishes := dish_nodes.foldl (fun acc dish =>
      (get_edges g dish.id none (some .similar_to)).foldl (fun acc e =>
        match get_node g e.target_id with
        | some sd => acc ++ [(sd, e.weight)]
        | none => acc) acc) []
    (stableSort byScoreDesc similar_dishes).take limit

/-- `GraphQueryEngine.find_cooking_methods_for_ingredient`. -/
def find_cooking_methods_for_ingredient (g : RecipeGraph) (st : GraphStorage)
    (ingredient_name : String) : List (GraphNode × Nat) :=
  let ingredient_nodes := search_nodes g st ingredient_name (some .ingredient) 10
  if ingredient_nodes.isEmpty then []
  else
    let method_counts := ingredient_nodes.foldl (fun mc ing =>
      (get_neighbors g ing.id (some .contains)).foldl (fun mc dish =>
        (get_neighbors g dish.id (some .uses_method)).foldl
          (fun mc m => dIncr mc m.id) mc) mc) []
    stableSort byCountDesc (method_counts.filterMap (fun pr =>
      (get_node g pr.1).map (fun m => (m, pr.2))))

/-- `GraphQueryEngine.find_ingredients_by_cooking_method`. -/
def find_ingredients_by_cooking_method (g : RecipeGraph) (st : GraphStorage)
    (method_name : String) : List (GraphNode × Nat) :=
  let method_nodes := search_nodes g st method_name (some .cooking_method) 10
  if method_nodes.isEmpty then []
  else
    let ingredient_counts := method_nodes.foldl (fun ic m =>
      (get_neighbors g m.id (some .uses_method)).foldl (fun ic dish =>
        (get_neighbors g dish.id (some .contains)).foldl
          (fun ic ing => dIncr ic ing.id) ic) ic) []
    stableSort byCountDesc (ingredient_counts.filterMap (fun pr =>
      (get_node g pr.1).map (fun ing => (ing, pr.2))))

/-- `GraphQueryEngine._calculate_substitution_score`: Jaccard overlap of
the two ingredients' PAIRS_WITH neighbor-id sets. -/
def _calculate_substitution_score (g : RecipeGraph)
    (original substitute : GraphNode) : ℚ :=
  let original_pairs :=
    ((get_neighbors g original.id (some .pairs_with)).map (fun i => i.id)).dedup
  let substitute_pairs :=
    ((get_neighbors g substitute.id (some .pairs_with)).map (fun i => i.id)).dedup
  if original_pairs.isEmpty || substitute_pairs.isEmpty then 0
  else
    let inter := (original_pairs.filter (fun i => substitute_pairs.contains i)).length
    let un := (original_pairs ++
      substitute_pairs.filter (fun i => ¬ original_pairs.contains i)).length
    if 0 < un then mkRat inter un else 0

/-- `GraphQueryEngine.get_ingredient_substitution_suggestions`: score
PAIRS_WITH partners by `_calculate_substitution_score`, keep scores > 0.1,
sort descending, return the top 10. -/
def get_ingredient_substitution_suggestions (g : RecipeGraph) (st : GraphStorage)
    (ingredient_name : String) : List (GraphNode × ℚ) :=
  let ingredient_nodes := search_nodes g st ingredient_name (some .ingredient) 10
  if ingredient_nodes.isEmpty then []
  else
    let suggestions := ingredient_nodes.foldl (fun acc ing =>
      (get_neighbors g ing.id (some .pairs_with)).foldl (fun acc pairing =>
        let s := _calculate_substitution_score g ing pairing
        if mkRat 1 10 < s then acc ++ [(pairing, s)] else acc) acc) []
    (stableSort byScoreDesc suggestions).take 10

/-- Metadata values carried by recommendations (ints, floats, strings and
string lists in the source). -/
inductive MetaVal : Type
  | s (v : String)
  | q (v : ℚ)
  | n (v : Nat)
  | ls (v : List String)
deriving DecidableEq

/-- `Recommendation` from `recommendation_engine.py`. -/
structure Recommendation : Type where
  item : GraphNode
  score : ℚ
  reason : String
  metadata : List (String × MetaVal)
deriving DecidableEq

/-- Descending comparator on recommendation scores. -/
def byRecScoreDesc (a b : Recommendation) : Bool := decide (b.score ≤ a.score)

/-- `_calculate_ingredient_based_score`: match ratio times a complexity
factor (1.2 for 3..8 ingredients, 0.8 above 10, else 1.0).  The
`available_ingredients` parameter is unused in the source as well. -/
def _calculate_ingredient_based_score (g : RecipeGraph) (dish : GraphNode)
    (match_count : Nat) : ℚ :=
  let total := (get_neighbors g dish.id (some .contains)).length
  if total = 0 then 0
  else
    let base := mkRat match_count total
    let factor : ℚ :=
      if 3 ≤ total ∧ total ≤ 8 then mkRat 12 10
      else if 10 < total then mkRat 8 10
      else 1
    base * factor

/-- `_calculate_method_based_score`. -/
def _calculate_method_based_score (common total : Nat) : ℚ :=
  if total = 0 then 0 else mkRat common total

/-- `_calculate_category_based_score`: three-tier complexity heuristic. -/
def _calculate_category_based_score (g : RecipeGraph) (dish : GraphNode) : ℚ :=
  let complexity := (get_neighbors g dish.id (some .contains)).length +
    (get_neighbors g dish.id (some .uses_method)).length
  if 4 ≤ complexity ∧ complexity ≤ 10 then 1
  else if complexity < 4 then mkRat 8 10
  else mkRat 6 10

/-- `_calculate_similarity_score`: pass-through of the SIMILAR_TO weight. -/
def _calculate_similarity_score (similarity : ℚ) : ℚ := similarity

/-- The name-deduplication dict built identically (line for line) by
`recommend_ingredients_by_dish` and `_merge_recommendations`: first
occurrence wins a slot per item name; a strictly higher score replaces. -/
def dedup_by_name_max (recs : List Recommendation) :
    List (String × Recommendation) :=
  recs.foldl (fun uniq r =>
    match dGet uniq r.item.name with
    | none => dSet uniq r.item.name r
    | some cur => if cur.score < r.score then dSet uniq r.item.name r else uniq) []

/-- `GraphRecommendationEngine._merge_recommendations`: dedup by item name
keeping the max score, sort by score descending, truncate. -/
def _merge_recommendations (recommendations : List Recommendation)
    (max_recommendations : Nat) : List Recommendation :=
  (stableSort byRecScoreDesc
    ((dedup_by_name_max recommendations).map Prod.snd)).take max_recommendations

/-- `recommend_dishes_by_ingredients`. -/
def recommend_dishes_by_ingredients (g : RecipeGraph) (st : GraphStorage)
    (available_ingredients : List String) (max_recommendations : Nat) :
    List Recommendation :=
  let dish_candidates := find_dishes_by_ingredients g st available_ingredients false
  let recommendations := dish_candidates.map (fun pr =>
    let dish_ingredients := get_neighbors g pr.1.id (some .contains)
    let missing := (dish_ingredients.filter
      (fun ing => ¬ available_ingredients.contains ing.name)).map (fun ing => ing.name)
    { item := pr.1
      score := _calculate_ingredient_based_score g pr.1 pr.2
      reason := "包含 " ++ toString pr.2 ++ " 种可用食材"
      metadata := [("match_count", .n pr.2),
                   ("total_ingredients", .n dish_ingredients.length),
                   ("missing_ingredients", .ls (missing.take 5)),
                   ("completion_rate", .q (if dish_ingredients.isEmpty then 0
                      else mkRat pr.2 dish_ingredients.length))] })
  (stableSort byRecScoreDesc recommendations).take max_recommendations

/-- `recommend_ingredients_by_dish`.  `pairingScore` abstracts the
floating-point `_calculate_pairing_score(cooccurrence, total) =
min(ln(cooccurrence+1)/5, 1.0)`, which has no exact rational form.  The
final dedup-by-name / sort / truncate block of the source is the same
algorithm as `_merge_recommendations`, expressed here by calling it. -/
def recommend_ingredients_by_dish (g : RecipeGraph) (st : GraphStorage)
    (pairingScore : Nat → Nat → ℚ) (dish_name : String)
    (max_recommendations : Nat) : List Recommendation :=
  let dish_nodes := search_nodes g st dish_name (some .dish) 10
  if dish_nodes.isEmpty then []
  else
    let recommendations := dish_nodes.foldl (fun acc dish =>
      let dish_ingredients := get_neighbors g dish.id (some .contains)
      let ingredient_names := dish_ingredients.map (fun i => i.name)
      dish_ingredients.foldl (fun acc ing =>
        (find_ingredient_pairs g st ing.name 2).foldl (fun acc pr =>
          if ¬ ingredient_names.contains pr.1.name then
            acc ++ [{ item := pr.1
                      score := pairingScore pr.2 dish_ingredients.length
                      reason := "与 " ++ ing.name ++ " 搭配，共同出现在 " ++
                        toString pr.2 ++ " 个菜品中"
                      metadata := [("base_ingredient", .s ing.name),
                                   ("cooccurrence_count", .n pr.2),
                                   ("target_dish", .s dish_name)] }]
          else acc) acc) acc) []
    _merge_recommendations recommendations max_recommendations

/-- `recommend_similar_dishes`: maps `find_similar_dishes` results to
recommendations with the pass-through similarity score; the source
performs no deduplication and no re-sort here. -/
def recommend_similar_dishes (g : RecipeGraph) (st : GraphStorage)
    (dish_name : String) (max_recommendations : Nat) : List Recommendation :=
  let similar_dishes := find_similar_dishes g st dish_name 5
  (similar_dishes.map (fun pr =>
    { item := pr.1
      score := _calculate_similarity_score pr.2
      reason := "与 " ++ dish_name ++ " 相似度 " ++ toString pr.2
      metadata := [("similarity_score", .q pr.2),
                   ("ingredient_count",
                      .n (get_neighbors g pr.1.id (some .contains)).length),
                   ("cooking_methods",
                      .ls (((get_neighbors g pr.1.id (some .uses_method)).take 3).map
                        (fun m => m.name)))] })).take max_recommendations

/-- `recommend_by_cooking_method`: dishes containing ingredients typical
for the method, scored by the common-ingredient ratio. -/
def recommend_by_cooking_method (g : RecipeGraph) (st : GraphStorage)
    (cooking_method : String) (max_recommendations : Nat) : List Recommendation :=
  let ingredients_for_method := find_ingredients_by_cooking_method g st cooking_method
  let ingredient_frequency := ingredients_for_method.foldl
    (fun d pr => dSet d pr.1.name pr.2) []
  let all_dishes := ingredients_for_method.foldl (fun acc pr =>
    (get_neighbors g pr.1.id (some .contains)).foldl (fun acc dish =>
      if acc.any (fun d => d.id == dish.id) then acc else acc ++ [dish]) acc) []
  let recommendations := all_dishes.foldl (fun acc dish =>
    let dish_ingredients := get_neighbors g dish.id (some .contains)
    let common := (dish_ingredients.filter
      (fun ing => dHas ingredient_frequency ing.name)).length
    if 0 < common then
      acc ++ [{ item := dish
                score := _calculate_method_based_score common dish_ingredients.length
                reason := "包含 " ++ toString common ++ " 种适合 " ++
                  cooking_method ++ " 的食材"
                metadata := [("cooking_method", .s cooking_method),
                             ("common_ingredient_count", .n common),
                             ("total_ingredients", .n dish_ingredients.length)] }]
    else acc) []
  (stableSort byRecScoreDesc recommendations).take max_recommendations

/-- `recommend_by_category`: dishes of the first resolved category node,
scored by the complexity heuristic. -/
def recommend_by_category (g : RecipeGraph) (st : GraphStorage)
    (category : String) (max_recommendations : Nat) : List Recommendation :=
  match search_nodes g st category (some .category) 10 with
  | [] => []
  | category_node :: _ =>
    let dishes := get_neighbors g category_node.id (some .belongs_to)
    let recommendations := dishes.map (fun dish =>
      { item := dish
        score := _calculate_category_based_score g dish
        reason := "属于 " ++ category ++ " 分类"
        metadata := [("category", .s category),
                     ("ingredient_count",
                        .n (get_neighbors g dish.id (some .contains)).length),
                     ("cooking_methods",
                        .ls (((get_neighbors g dish.id (some .uses_method)).take 3).map
                          (fun m => m.name))),
                     ("difficulty", .s (dGetD dish.properties "difficulty" "未知"))] })
    (stableSort byRecScoreDesc recommendations).take max_recommendations

/-- `recommend_ingredient_substitutions`: pass-through of the
substitution suggestions (already sorted), with pairing metadata. -/
def recommend_ingredient_substitutions (g : RecipeGraph) (st : GraphStorage)
    (original_ingredient : String) (max_recommendations : Nat) :
    List Recommendation :=
  let substitutions := get_ingredient_substitution_suggestions g st original_ingredient
  (substitutions.map (fun pr =>
    { item := pr.1
      score := pr.2
      reason := "与 " ++ original_ingredient ++ " 搭配相似度 " ++ toString pr.2
      metadata := [("original_ingredient", .s original_ingredient),
                   ("substitution_score", .q pr.2),
                   ("common_pairings",
                      .ls (((find_ingredient_pairs g st pr.1.name 2).take 5).map
                        (fun q => q.1.name)))] })).take max_recommendations

/-- The optional keys of the `user_preferences` dict consumed by
`hybrid_recommend`; a `some` field models the key being present. -/
structure UserPreferences : Type where
  available_ingredients : Option (List String)
  preferred_cooking_methods : Option (List String)
  preferred_categories : Option (List String)
  favorite_dishes : Option (List String)

/-- `hybrid_recommend`: concatenate the per-preference strategies and
merge via `_merge_recommendations`. -/
def hybrid_recommend (g : RecipeGraph) (st : GraphStorage)
    (prefs : UserPreferences) (max_recommendations : Nat) : List Recommendation :=
  let all1 := match prefs.available_ingredients with
    | some ings => recommend_dishes_by_ingredients g st ings max_recommendations
    | none => []
  let all2 := match prefs.preferred_cooking_methods with
    | some ms => ms.foldl
        (fun acc m => acc ++ recommend_by_cooking_method g st m max_recommendations) []
    | none => []
  let all3 := match prefs.preferred_categories with
    | some cs => cs.foldl
        (fun acc c => acc ++ recommend_by_category g st c max_recommendations) []
    | none => []
  let all4 := match prefs.favorite_dishes with
    | some ds => ds.foldl
        (fun acc dn => acc ++ recommend_similar_dishes g st dn max_recommendations) []
    | none => []
  _merge_recommendations (all1 ++ all2 ++ all3 ++ all4) max_recommendations

/-- The enqueue loop inside one BFS expansion of `_find_shortest_path`:
walk the neighbor list threading the visited set, enqueueing each
not-yet-visited node with its extended path. -/
def enqueueAll (path : List GraphNode) :
    List GraphNode → List String →
    List (GraphNode × List GraphNode) × List String
  | [], visited => ([], visited)
  | n :: ns, visited =>
    if visited.contains n.id then enqueueAll path ns visited
    else
      let r := enqueueAll path ns (visited ++ [n.id])
      ((n, path ++ [n]) :: r.1, r.2)

/-- The BFS loop of `_find_shortest_path`.  `fuel` only bounds the number
of dequeues performed; `_find_shortest_path` passes `g.nodes.length + 1`,
which is shown sufficient in the loop lemmas (each dequeue either shrinks
the queue or was paid for by a fresh visited id). -/
def bfsLoop (g : RecipeGraph) (endId : String) (max_depth : Nat) :
    Nat → List (GraphNode × List GraphNode) → List String →
    Option (List GraphNode)
  | 0, _, _ => none
  | _ + 1, [], _ => none
  | fuel + 1, (c, path) :: rest, visited =>
    if max_depth < path.length then bfsLoop g endId max_depth fuel rest visited
    else
      match (get_neighbors g c.id none).find? (fun n => n.id == endId) with
      | some n => some (path ++ [n])
      | none =>
        let s := enqueueAll path (get_neighbors g c.id none) visited
        bfsLoop g endId max_depth fuel (rest ++ s.1) s.2

/-- `GraphQueryEngine._find_shortest_path`: single-node path if the ids
coincide, otherwise breadth-first search bounded by `max_depth`, with
nodes marked visited at enqueue time. -/
def _find_shortest_path (g : RecipeGraph) (start endN : GraphNode)
    (max_depth : Nat) : Option (List GraphNode) :=
  if start.id = endN.id then some [start]
  else bfsLoop g endN.id max_depth (g.nodes.length + 1) [(start, [start])] [start.id]

/-- `GraphQueryEngine.find_path_between_ingredients`: resolve both names,
run the BFS for every pair, keep the (always non-empty) found paths. -/
def find_path_between_ingredients (g : RecipeGraph) (st : GraphStorage)
    (ingredient1 ingredient2 : String) (max_depth : Nat) :
    List (List GraphNode) :=
  let nodes1 := search_nodes g st ingredient1 (some .ingredient) 10
  let nodes2 := search_nodes g st ingredient2 (some .ingredient) 10
  if nodes1.isEmpty || nodes2.isEmpty then []
  else
    nodes1.foldl (fun paths s =>
      nodes2.foldl (fun paths e =>
        match _find_shortest_path g s e max_depth with
        | some p => if p.isEmpty then paths else paths ++ [p]
        | none => paths) paths) []

/-- Reachability within `k` hops over the undirected `get_neighbors`
relation (the relation BFS explores), between node ids. -/
inductive ReachIn (g : RecipeGraph) : String → Nat → String → Prop
  | refl (x : String) (k : Nat) : ReachIn g x k x
  | step {x z : String} {k : Nat} (n : GraphNode)
      (hn : n ∈ get_neighbors g x none)
      (h : ReachIn g n.id k z) : ReachIn g x (k + 1) z

/-- The invariant of the `dedup_by_name_max` fold: duplicate-free keys;
every entry stores a processed recommendation, keyed by its item name,
whose score dominates all processed same-named entries; and every
processed name has an entry. -/
def DedupInv (uniq : List (String × Recommendation))
    (seen : List Recommendation) : Prop :=
  (uniq.map Prod.fst).Nodup ∧
  (∀ p ∈ uniq, p.2.item.name = p.1 ∧ p.2 ∈ seen ∧
     ∀ r' ∈ seen, r'.item.name = p.1 → r'.score ≤ p.2.score) ∧
  (∀ r' ∈ seen, ∃ p ∈ uniq, p.1 = r'.item.name)

/-- Concrete graph for the C5 counterexample: two dishes named "tomato",
each SIMILAR_TO the dish "stew". -/
def c5Graph : RecipeGraph :=
  add_edge (add_edge (add_node (add_node (add_node emptyGraph
    ⟨"d1", .dish, "tomato", []⟩) ⟨"d2", .dish, "tomato", []⟩)
    ⟨"dx", .dish, "stew", []⟩)
    ⟨"d1", "dx", .similar_to, 2, []⟩) ⟨"d2", "dx", .similar_to, 1, []⟩

/-- A walk (node sequence) leaving the id `x` along the undirected
neighbor relation and ending at the id `z`; the empty walk requires
`x = z`.  One hop per list element. -/
def IsWalkFrom (g : RecipeGraph) : String → List GraphNode → String → Prop
  | x, [], z => x = z
  | x, n :: rest, z => n ∈ get_neighbors g x none ∧ IsWalkFrom g n.id rest z

/-- The undirected neighbor relation BFS explores: `v` occurs in the
neighbor list of `u`'s id. -/
def nbrRel (g : RecipeGraph) (u v : GraphNode) : Prop :=
  v ∈ get_neighbors g u.id none

/-- The per-entry queue invariant shared by both BFS loop lemmas: the
stored path is a neighbor-relation walk from `start` ending at the
entry's node, its ids are duplicate-free and all visited. -/
def EntryCore (g : RecipeGraph) (start : GraphNode) (visited : List String)
    (e : GraphNode × List GraphNode) : Prop :=
  (∃ rest, e.2 = start :: rest ∧ List.Chain (nbrRel g) start rest) ∧
  e.2.getLast? = some e.1 ∧
  (e.2.map (fun n => n.id)).Nodup ∧
  (∀ x ∈ e.2.map (fun n => n.id), x ∈ visited)

/-- The full BFS loop invariant: core facts per entry, shortest stored
paths, two-level queue monotonicity, and the visited-set bookkeeping
(closure: every visited id still queued, fully explored, or too deep). -/
structure BfsInv (g : RecipeGraph) (start : GraphNode) (endId : String)
    (maxDepth : Nat) (Q : List (GraphNode × List GraphNode))
    (visited : List String) : Prop where
  entries : ∀ e ∈ Q, EntryCore g start visited e
  minim : ∀ e ∈ Q, ∀ j, ReachIn g start.id j e.1.id → e.2.length ≤ j + 1
  mono : Q.Pairwise (fun e1 e2 =>
    e1.2.length ≤ e2.2.length ∧ e2.2.length ≤ e1.2.length + 1)
  start_mem : start.id ∈ visited
  end_not : endId ∉ visited
  vnodup : visited.Nodup
  vsub : ∀ x ∈ visited, x ∈ start.id :: g.nodes.map (fun p => p.2.id)
  closed : ∀ x ∈ visited, (∃ e ∈ Q, e.1.id = x) ∨
    (∀ n ∈ get_neighbors g x none, n.id ≠ endId ∧ n.id ∈ visited) ∨
    ¬ ReachIn g start.id (maxDepth - 1) x

/-- What holds of a path returned by the BFS: a neighbor-relation walk
from `start` to the end id, simple, within the depth bound, and at least
as short as any reachability bound. -/
def BfsFound (g : RecipeGraph) (start : GraphNode) (endId : String)
    (maxDepth : Nat) (p : List GraphNode) : Prop :=
  (∃ rest, p = start :: rest ∧ List.Chain (nbrRel g) start rest) ∧
  p.getLast?.map (fun n => n.id) = some endId ∧
  (p.map (fun n => n.id)).Nodup ∧
  p.length ≤ maxDepth + 1 ∧
  (∀ j, ReachIn g start.id j endId → p.length ≤ j + 1)

/-- Concrete three-node graph for the C7 and C10 witnesses: a dish node
linking the ingredients "apple" and "banana". -/
def c7Graph : RecipeGraph :=
  add_edge (add_edge (add_node (add_node (add_node emptyGraph
    ⟨"a", .ingredient, "apple", []⟩) ⟨"b", .ingredient, "banana", []⟩)
    ⟨"d", .dish, "fruit salad", []⟩)
    ⟨"d", "a", .contains, 1, []⟩) ⟨"d", "b", .contains, 1, []⟩

section DictLemmas

variable {κ α : Type} [BEq κ]

theorem dGet_mem [LawfulBEq κ] {d : List (κ × α)} {k : κ} {v : α}
    (h : dGet d k = some v) : ∃ p ∈ d, p.1 = k ∧ p.2 = v := by
  unfold dGet at h
  rcases hf : d.find? (fun p => p.1 == k) with _ | p
  · rw [hf] at h; exact absurd h (by simp)
  · rw [hf] at h
    refine ⟨p, List.mem_of_find?_eq_some hf, eq_of_beq ?_, ?_⟩
    · have hp := List.find?_some hf
      simpa using hp
    · simpa using h

theorem dGet_nil {k : κ} : dGet ([] : List (κ × α)) k = none := rfl

theorem dGet_cons {p : κ × α} {d : List (κ × α)} {k : κ} :
    dGet (p :: d) k = if p.1 == k then some p.2 else dGet d k := by
  by_cases h : (p.1 == k) = true
  · simp [dGet, List.find?, h]
  · simp only [Bool.not_eq_true] at h
    simp [dGet, List.find?, h]

theorem dSet_absent {d : List (κ × α)} {k : κ} {v : α}
    (h : dGet d k = none) : dSet d k v = d ++ [(k, v)] := by
  induction d with
  | nil => rfl
  | cons p rest ih =>
    rw [dGet_cons] at h
    by_cases hp : (p.1 == k) = true
    · rw [if_pos hp] at h; exact absurd h (by simp)
    · rw [if_neg hp] at h
      simp only [Bool.not_eq_true] at hp
      simp [dSet, hp, ih h]

end DictLemmas

/-- Membership in the outgoing part of `get_neighbors`. -/
theorem mem_get_neighbors_out {g : RecipeGraph} {a b : String}
    {targets : List (String × List GraphEdge)} {es : List GraphEdge}
    {t : Option EdgeType} {nb : GraphNode}
    (hadj : dGet g.adjacency_list a = some targets)
    (hts : dGet targets b = some es)
    (hfil : typeFilter t es = true)
    (hnb : dGet g.nodes b = some nb) :
    nb ∈ get_neighbors g a t := by
  unfold get_neighbors
  refine List.mem_append.mpr (Or.inl ?_)
  obtain ⟨p, hpmem, hpk, hpv⟩ := dGet_mem hts
  refine List.mem_filterMap.mpr ⟨p, ?_, ?_⟩
  · simpa [dGetD, hadj] using hpmem
  · rw [hpv, hfil]
    simpa [get_node, hpk] using hnb

/-- Membership in the incoming part of `get_neighbors`. -/
theorem mem_get_neighbors_in {g : RecipeGraph} {a b : String}
    {targets : List (String × List GraphEdge)} {es : List GraphEdge}
    {t : Option EdgeType} {na : GraphNode}
    (hadj : dGet g.adjacency_list a = some targets)
    (hts : dGet targets b = some es)
    (hfil : typeFilter t es = true)
    (hna : dGet g.nodes a = some na) :
    na ∈ get_neighbors g b t := by
  unfold get_neighbors
  refine List.mem_append.mpr (Or.inr ?_)
  obtain ⟨q, hqmem, hqk, hqv⟩ := dGet_mem hadj
  refine List.mem_filterMap.mpr ⟨q, hqmem, ?_⟩
  rw [hqv, hts]
  show (if typeFilter t es = true then get_node g q.1 else none) = some na
  rw [hfil]
  simpa [get_node, hqk] using hna

/-- A duplicate-identity `add_edge` leaves the graph unchanged. -/
theorem add_edge_mem_noop (g : RecipeGraph) (e : GraphEdge)
    (h : edgeMem g.edges e = true) : add_edge g e = g := by
  unfold add_edge
  rw [h]
  simp

/-- A fresh-identity `add_edge` appends the edge to the edge list. -/
theorem add_edge_fresh_edges (g : RecipeGraph) (e : GraphEdge)
    (h : edgeMem g.edges e = false) : (add_edge g e).edges = g.edges ++ [e] := by
  unfold add_edge
  rw [h]
  simp

/-- `add_edge` never changes the node mapping. -/
theorem add_edge_nodes (g : RecipeGraph) (e : GraphEdge) :
    (add_edge g e).nodes = g.nodes := by
  unfold add_edge
  split <;> rfl

/-- C2: adding two identity-equal edges to a graph not already containing
that identity grows the edge list by exactly one, and the first edge (with
its weight) is the one kept. -/
theorem c2_idempotent_edge_insertion (g : RecipeGraph) (e1 e2 : GraphEdge)
    (hfresh : ∀ e' ∈ g.edges, edgeKeyEq e' e1 = false)
    (hsame : edgeKeyEq e1 e2 = true) :
    (add_edge (add_edge g e1) e2).edges = g.edges ++ [e1] ∧
    (add_edge (add_edge g e1) e2).edges.length = g.edges.length + 1 := by
  have h1 : edgeMem g.edges e1 = false := by
    unfold edgeMem
    rw [List.any_eq_false]
    intro e' he'
    simp [hfresh e' he']
  have hedges1 : (add_edge g e1).edges = g.edges ++ [e1] :=
    add_edge_fresh_edges g e1 h1
  have h2 : edgeMem (add_edge g e1).edges e2 = true := by
    rw [hedges1]
    unfold edgeMem
    rw [List.any_eq_true]
    exact ⟨e1, by simp, hsame⟩
  rw [add_edge_mem_noop _ _ h2, hedges1]
  simp

/-- Witness for C2 at a concrete input: two insertions of the
(a, b, contains) identity with different weights. -/
theorem c2_witness :
    (∀ e' ∈ emptyGraph.edges, edgeKeyEq e' ⟨"a", "b", .contains, 1, []⟩ = false) ∧
    edgeKeyEq ⟨"a", "b", .contains, 1, []⟩ ⟨"a", "b", .contains, 2, []⟩ = true ∧
    ((add_edge (add_edge emptyGraph ⟨"a", "b", .contains, 1, []⟩)
        ⟨"a", "b", .contains, 2, []⟩).edges =
      emptyGraph.edges ++ [⟨"a", "b", .contains, 1, []⟩] ∧
     (add_edge (add_edge emptyGraph ⟨"a", "b", .contains, 1, []⟩)
        ⟨"a", "b", .contains, 2, []⟩).edges.length =
      emptyGraph.edges.length + 1) :=
  ⟨by decide, by decide,
    c2_idempotent_edge_insertion emptyGraph _ _ (by decide) (by decide)⟩

/-- C9: when an identity-equal edge is already present, `add_edge` is a
complete no-op on all three components of the graph. -/
theorem c9_duplicate_add_edge_noop (g : RecipeGraph) (e : GraphEdge)
    (hdup : edgeMem g.edges e = true) :
    add_edge g e = g :=
  add_edge_mem_noop g e hdup

/-- Witness for C9: re-adding the (a, b, contains) identity with a
different weight leaves the concrete graph untouched. -/
theorem c9_witness :
    edgeMem (add_edge emptyGraph ⟨"a", "b", .contains, 1, []⟩).edges
        ⟨"a", "b", .contains, 5, []⟩ = true ∧
    add_edge (add_edge emptyGraph ⟨"a", "b", .contains, 1, []⟩)
        ⟨"a", "b", .contains, 5, []⟩ =
      add_edge emptyGraph ⟨"a", "b", .contains, 1, []⟩ :=
  ⟨by decide, c9_duplicate_add_edge_noop _ _ (by decide)⟩

/-- C4: if the adjacency index stores an edge from `a` to `b` of type `t`
and both nodes are present, then `get_neighbors a t` contains `b`'s node
and `get_neighbors b t` contains `a`'s node. -/
theorem c4_neighbor_symmetry (g : RecipeGraph) (a b : String) (t : EdgeType)
    (e : GraphEdge) (targets : List (String × List GraphEdge))
    (es : List GraphEdge) (na nb : GraphNode)
    (hadj : dGet g.adjacency_list a = some targets)
    (hts : dGet targets b = some es)
    (he : e ∈ es) (het : e.edge_type = t)
    (hna : dGet g.nodes a = some na) (hnb : dGet g.nodes b = some nb) :
    nb ∈ get_neighbors g a (some t) ∧ na ∈ get_neighbors g b (some t) := by
  have hfil : typeFilter (some t) es = true := by
    unfold typeFilter
    rw [List.any_eq_true]
    exact ⟨e, he, by simp [het]⟩
  exact ⟨mem_get_neighbors_out hadj hts hfil hnb,
         mem_get_neighbors_in hadj hts hfil hna⟩

/-- Witness for C4 on a concrete graph containing the single edge
(a, b, contains). -/
theorem c4_witness :
    dGet (add_edge (add_node (add_node emptyGraph ⟨"a", .ingredient, "alpha", []⟩)
        ⟨"b", .dish, "beta", []⟩) ⟨"a", "b", .contains, 1, []⟩).adjacency_list "a" =
      some [("b", [⟨"a", "b", .contains, 1, []⟩])] ∧
    ⟨"b", .dish, "beta", []⟩ ∈
      get_neighbors (add_edge (add_node (add_node emptyGraph ⟨"a", .ingredient, "alpha", []⟩)
        ⟨"b", .dish, "beta", []⟩) ⟨"a", "b", .contains, 1, []⟩) "a" (some .contains) ∧
    ⟨"a", .ingredient, "alpha", []⟩ ∈
      get_neighbors (add_edge (add_node (add_node emptyGraph ⟨"a", .ingredient, "alpha", []⟩)
        ⟨"b", .dish, "beta", []⟩) ⟨"a", "b", .contains, 1, []⟩) "b" (some .contains) := by
  refine ⟨by decide, ?_⟩
  have h := c4_neighbor_symmetry
    (add_edge (add_node (add_node emptyGraph ⟨"a", .ingredient, "alpha", []⟩)
      ⟨"b", .dish, "beta", []⟩) ⟨"a", "b", .contains, 1, []⟩)
    "a" "b" .contains ⟨"a", "b", .contains, 1, []⟩
    [("b", [⟨"a", "b", .contains, 1, []⟩])] [⟨"a", "b", .contains, 1, []⟩]
    ⟨"a", .ingredient, "alpha", []⟩ ⟨"b", .dish, "beta", []⟩
    (by decide) (by decide) (by decide) (by decide) (by decide) (by decide)
  exact ⟨h.1, h.2⟩

/-- C3 counterexample: in `c3Graph` the node b appears twice in
`get_neighbors a` (once from the outgoing scan, once from the incoming
scan), so the result list is not duplicate-free. -/
theorem c3_counterexample :
    (get_neighbors c3Graph "a" none).count ⟨"b", .ingredient, "beta", []⟩ = 2 ∧
    ¬ (get_neighbors c3Graph "a" none).Nodup := by decide

/-- A `filterMap` over an association list with duplicate-free keys whose
function forces the key of any hit to be the produced node's id yields
each node at most once. -/
theorem count_filterMap_le_one {β : Type} (l : List (String × β))
    (f : String × β → Option GraphNode) (n : GraphNode)
    (hkeys : (l.map Prod.fst).Nodup)
    (hf : ∀ p, f p = some n → p.1 = n.id) :
    (l.filterMap f).count n ≤ 1 := by
  induction l with
  | nil => simp
  | cons p rest ih =>
    simp only [List.map_cons, List.nodup_cons] at hkeys
    obtain ⟨hnotin, hrest⟩ := hkeys
    rw [List.filterMap_cons]
    cases hfp : f p with
    | none => exact ih hrest
    | some m =>
      by_cases hmn : m = n
      · subst hmn
        have hzero : (rest.filterMap f).count m = 0 := by
          rw [List.count_eq_zero]
          intro hmem
          obtain ⟨q, hq, hfq⟩ := List.mem_filterMap.mp hmem
          have hq1 : q.1 = m.id := hf q hfq
          have hp1 : p.1 = m.id := hf p hfp
          exact hnotin (by rw [hp1, ← hq1]; exact List.mem_map_of_mem Prod.fst hq)
        simp [List.count_cons, hzero]
      · rw [List.count_cons_of_ne (fun h => hmn h.symm)]
        exact ih hrest

/-- Every node delivered by `get_node` has the queried id, provided the
node dict keys coincide with the stored node ids. -/
theorem get_node_id {g : RecipeGraph} {nid : String} {m : GraphNode}
    (hkeyinv : ∀ p ∈ g.nodes, p.1 = p.2.id)
    (h : get_node g nid = some m) : nid = m.id := by
  obtain ⟨q, hq, hqk, hqv⟩ := dGet_mem h
  rw [← hqk, hkeyinv q hq, hqv]

/-- C3 amended: a neighbor can appear at most once via the outgoing scan
and at most once via the incoming scan — at most twice in total; the
source does not deduplicate across the two scans (see the
counterexample, where a node connected in both directions appears twice). -/
theorem c3_amended_neighbor_multiplicity (g : RecipeGraph) (u : String)
    (t : Option EdgeType) (n : GraphNode)
    (hadjKeys : (g.adjacency_list.map Prod.fst).Nodup)
    (hinner : ∀ p ∈ g.adjacency_list, (p.2.map Prod.fst).Nodup)
    (hkeyinv : ∀ p ∈ g.nodes, p.1 = p.2.id) :
    (get_neighbors g u t).count n ≤ 2 := by
  unfold get_neighbors
  rw [List.count_append]
  have hout : ((dGetD g.adjacency_list u []).filterMap
      (fun p => if typeFilter t p.2 then get_node g p.1 else none)).count n ≤ 1 := by
    cases hd : dGet g.adjacency_list u with
    | none => simp [dGetD, hd]
    | some targets =>
      have htk : (targets.map Prod.fst).Nodup := by
        obtain ⟨q, hq, _, hqv⟩ := dGet_mem hd
        rw [← hqv]
        exact hinner q hq
      have heq : dGetD g.adjacency_list u [] = targets := by simp [dGetD, hd]
      rw [heq]
      apply count_filterMap_le_one _ _ _ htk
      intro p hp
      by_cases htf : typeFilter t p.2 = true
      · rw [if_pos htf] at hp
        exact get_node_id hkeyinv hp
      · rw [if_neg htf] at hp
        exact absurd hp (by simp)
  have hin : (g.adjacency_list.filterMap
      (fun q =>
        match dGet q.2 u with
        | none => none
        | some es => if typeFilter t es then get_node g q.1 else none)).count n ≤ 1 := by
    apply count_filterMap_le_one _ _ _ hadjKeys
    intro q hq
    cases hd : dGet q.2 u with
    | none => rw [hd] at hq; exact absurd hq (by simp)
    | some es =>
      rw [hd] at hq
      change (if typeFilter t es = true then get_node g q.1 else none) = some n at hq
      by_cases htf : typeFilter t es = true
      · rw [if_pos htf] at hq
        exact get_node_id hkeyinv hq
      · rw [if_neg htf] at hq
        exact absurd hq (by simp)
  omega

theorem dGet_eq_none_of_not_mem_keys {κ α : Type} [BEq κ] [LawfulBEq κ] {d : List (κ × α)} {k : κ}
    (h : k ∉ d.map Prod.fst) : dGet d k = none := by
  unfold dGet
  rw [List.find?_eq_none.mpr]
  · rfl
  · intro x hx
    simp only [Bool.not_eq_true, beq_eq_false_iff_ne, ne_eq]
    intro hk
    exact h (hk ▸ List.mem_map_of_mem Prod.fst hx)

/-- `add_node` with a fresh id appends the (id, node) entry. -/
theorem add_node_fresh_nodes (g : RecipeGraph) (n : GraphNode)
    (h : dGet g.nodes n.id = none) :
    (add_node g n).nodes = g.nodes ++ [(n.id, n)] := by
  unfold add_node
  exact dSet_absent h

/-- `add_node` never changes the edge list. -/
theorem add_node_edges (g : RecipeGraph) (n : GraphNode) :
    (add_node g n).edges = g.edges := rfl

/-- Folding `add_node` over records with duplicate-free ids, all fresh for
the starting graph, appends the corresponding dictionary entries in order. -/
theorem fold_add_node_nodes (nds : List NodeDict) (g0 : RecipeGraph)
    (hfresh : ∀ nd ∈ nds, nd.id ∉ g0.nodes.map Prod.fst)
    (hnodup : (nds.map NodeDict.id).Nodup) :
    (nds.foldl (fun g nd => add_node g ⟨nd.id, nd.type, nd.name, nd.properties⟩) g0).nodes =
      g0.nodes ++ nds.map (fun nd => (nd.id, ⟨nd.id, nd.type, nd.name, nd.properties⟩)) := by
  induction nds generalizing g0 with
  | nil => simp
  | cons nd rest ih =>
    simp only [List.map_cons, List.nodup_cons] at hnodup
    obtain ⟨hhd, hrest⟩ := hnodup
    rw [List.foldl_cons]
    have hn1 : (add_node g0 ⟨nd.id, nd.type, nd.name, nd.properties⟩).nodes =
        g0.nodes ++ [(nd.id, ⟨nd.id, nd.type, nd.name, nd.properties⟩)] :=
      add_node_fresh_nodes g0 _
        (dGet_eq_none_of_not_mem_keys (hfresh nd (by simp)))
    rw [ih _ ?_ hrest]
    · rw [hn1]
      simp
    · intro nd' hnd'
      rw [hn1]
      simp only [List.map_append, List.mem_append]
      rintro (hL | hR)
      · exact hfresh nd' (by simp [hnd']) hL
      · simp at hR
        exact hhd (hR ▸ List.mem_map_of_mem NodeDict.id hnd')

/-- Folding `add_node` never changes the edge list. -/
theorem fold_add_node_edges (nds : List NodeDict) (g0 : RecipeGraph) :
    (nds.foldl (fun g nd => add_node g ⟨nd.id, nd.type, nd.name, nd.properties⟩) g0).edges =
      g0.edges := by
  induction nds generalizing g0 with
  | nil => rfl
  | cons nd rest ih => rw [List.foldl_cons, ih, add_node_edges]

/-- Folding `add_edge` never changes the node mapping. -/
theorem fold_add_edge_nodes (eds : List EdgeDict) (g0 : RecipeGraph) :
    (eds.foldl (fun g ed => add_edge g ⟨ed.source, ed.target, ed.type, ed.weight, ed.properties⟩) g0).nodes =
      g0.nodes := by
  induction eds generalizing g0 with
  | nil => rfl
  | cons ed rest ih => rw [List.foldl_cons, ih, add_edge_nodes]

/-- Folding `add_edge` over edge records whose identities are pairwise
distinct and fresh for the starting graph appends them all in order. -/
theorem fold_add_edge_edges (eds : List EdgeDict) (g0 : RecipeGraph)
    (hfresh : ∀ ed ∈ eds,
      edgeMem g0.edges ⟨ed.source, ed.target, ed.type, ed.weight, ed.properties⟩ = false)
    (hpw : eds.Pairwise (fun a b =>
      edgeKeyEq ⟨a.source, a.target, a.type, a.weight, a.properties⟩
        ⟨b.source, b.target, b.type, b.weight, b.properties⟩ = false)) :
    (eds.foldl (fun g ed => add_edge g ⟨ed.source, ed.target, ed.type, ed.weight, ed.properties⟩) g0).edges =
      g0.edges ++ eds.map (fun ed => ⟨ed.source, ed.target, ed.type, ed.weight, ed.properties⟩) := by
  induction eds generalizing g0 with
  | nil => simp
  | cons ed rest ih =>
    rw [List.pairwise_cons] at hpw
    obtain ⟨hhd, hrest⟩ := hpw
    rw [List.foldl_cons]
    have he1 : (add_edge g0 ⟨ed.source, ed.target, ed.type, ed.weight, ed.properties⟩).edges =
        g0.edges ++ [⟨ed.source, ed.target, ed.type, ed.weight, ed.properties⟩] :=
      add_edge_fresh_edges g0 _ (hfresh ed (by simp))
    rw [ih _ ?_ hrest]
    · rw [he1]
      simp
    · intro ed' hed'
      rw [he1]
      unfold edgeMem at hfresh ⊢
      rw [List.any_eq_false]
      intro x hx
      rcases List.mem_append.mp hx with hL | hR
      · have := hfresh ed' (by simp [hed'])
        rw [List.any_eq_false] at this
        exact this x hL
      · simp only [List.mem_singleton] at hR
        subst hR
        simp [hhd ed' hed']

/-- C1: exporting any well-formed graph with `to_dict` and re-importing
with `load_from_file`'s reconstruction reproduces the node mapping exactly
(each node keeping id, type, name, properties) and reproduces the edge
list exactly (hence the same edge-identity set with the same weights). -/
theorem c1_round_trip (g : RecipeGraph)
    (hkeyinv : ∀ p ∈ g.nodes, p.1 = p.2.id)
    (hkeys : (g.nodes.map Prod.fst).Nodup)
    (hedges : g.edges.Pairwise (fun a b => edgeKeyEq a b = false)) :
    (load_from_dict (to_dict g)).nodes = g.nodes ∧
    (load_from_dict (to_dict g)).edges = g.edges ∧
    (∀ nid, get_node (load_from_dict (to_dict g)) nid = get_node g nid) := by
  have hids : ((to_dict g).nodes.map NodeDict.id) = g.nodes.map Prod.fst := by
    unfold to_dict
    rw [List.map_map]
    apply List.map_congr_left
    intro p hp
    exact (hkeyinv p hp).symm
  have hnodes : (load_from_dict (to_dict g)).nodes = g.nodes := by
    unfold load_from_dict
    rw [fold_add_edge_nodes, fold_add_node_nodes _ _ (by simp [emptyGraph]) (by rw [hids]; exact hkeys)]
    unfold to_dict
    simp only [List.map_map, List.nil_append, emptyGraph]
    conv_rhs => rw [← List.map_id g.nodes]
    apply List.map_congr_left
    intro p hp
    exact Prod.ext (hkeyinv p hp).symm rfl
  have hedgesEq : (load_from_dict (to_dict g)).edges = g.edges := by
    unfold load_from_dict
    rw [fold_add_edge_edges _ _ ?_ ?_]
    · rw [fold_add_node_edges]
      unfold to_dict
      simp only [List.map_map, emptyGraph, List.nil_append]
      conv_rhs => rw [← List.map_id g.edges]
      apply List.map_congr_left
      intro e _
      rfl
    · intro ed _
      rw [fold_add_node_edges]
      rfl
    · unfold to_dict
      simp only [List.pairwise_map]
      exact hedges
  exact ⟨hnodes, hedgesEq, fun nid => by unfold get_node; rw [hnodes]⟩

/-- Witness for C1 on a concrete two-node, two-edge graph. -/
theorem c1_witness :
    ((∀ p ∈ c3Graph.nodes, p.1 = p.2.id) ∧
     (c3Graph.nodes.map Prod.fst).Nodup ∧
     c3Graph.edges.Pairwise (fun a b => edgeKeyEq a b = false)) ∧
    ((load_from_dict (to_dict c3Graph)).nodes = c3Graph.nodes ∧
     (load_from_dict (to_dict c3Graph)).edges = c3Graph.edges ∧
     (∀ nid, get_node (load_from_dict (to_dict c3Graph)) nid = get_node c3Graph nid)) :=
  ⟨⟨by decide, by decide, by decide⟩,
    c1_round_trip c3Graph (by decide) (by decide) (by decide)⟩

/-- Witness for the amended C3 theorem at the concrete graph `c3Graph`. -/
theorem c3_amended_witness :
    ((c3Graph.adjacency_list.map Prod.fst).Nodup ∧
     (∀ p ∈ c3Graph.adjacency_list, (p.2.map Prod.fst).Nodup) ∧
     (∀ p ∈ c3Graph.nodes, p.1 = p.2.id)) ∧
    (get_neighbors c3Graph "a" none).count ⟨"b", .ingredient, "beta", []⟩ ≤ 2 :=
  ⟨⟨by decide, by decide, by decide⟩,
    c3_amended_neighbor_multiplicity c3Graph "a" none _
      (by decide) (by decide) (by decide)⟩

theorem leadMatch_refl (l : List Char) : leadMatch l l = true := by
  induction l with
  | nil => rfl
  | cons a t ih => simp [leadMatch, ih]

theorem strContains_self (s : String) : strContains s s = true := by
  unfold strContains
  cases h : s.data with
  | nil => rfl
  | cons a t =>
    unfold seqContains
    rw [leadMatch_refl]
    rfl

theorem mem_sAdd_self (s : List String) (x : String) : x ∈ sAdd s x := by
  unfold sAdd
  by_cases h : s.contains x = true
  · rw [if_pos h]; exact List.mem_of_elem_eq_true h
  · rw [if_neg h]; simp

theorem mem_sAdd_of_mem {s : List String} {y : String} (x : String)
    (h : y ∈ s) : y ∈ sAdd s x := by
  unfold sAdd
  split <;> simp [h]

theorem mem_sUnion_left {s : List String} {y : String} (xs : List String)
    (h : y ∈ s) : y ∈ sUnion s xs := by
  induction xs generalizing s with
  | nil => exact h
  | cons x rest ih => exact ih (mem_sAdd_of_mem x h)

theorem mem_sUnion_right {xs : List String} {y : String} (s : List String)
    (h : y ∈ xs) : y ∈ sUnion s xs := by
  induction xs generalizing s with
  | nil => exact absurd h (by simp)
  | cons x rest ih =>
    rcases List.mem_cons.mp h with rfl | hr
    · exact mem_sUnion_left rest (mem_sAdd_self s y)
    · exact ih (sAdd s x) hr

theorem dGet_dSet {κ α : Type} [BEq κ] [LawfulBEq κ]
    (d : List (κ × α)) (k : κ) (v : α) : dGet (dSet d k v) k = some v := by
  induction d with
  | nil => simp [dSet, dGet, List.find?]
  | cons p rest ih =>
    unfold dSet
    by_cases h : (p.1 == k) = true
    · rw [if_pos h, dGet_cons]
      simp
    · rw [if_neg h, dGet_cons, if_neg h]
      exact ih

theorem dGet_dSet_ne {κ α : Type} [BEq κ] [LawfulBEq κ]
    (d : List (κ × α)) (k k' : κ) (v : α) (h : k ≠ k') :
    dGet (dSet d k' v) k = dGet d k := by
  have hk : (k' == k) = false := beq_eq_false_iff_ne.mpr (fun hh => h hh.symm)
  induction d with
  | nil => simp [dSet, dGet, List.find?, hk]
  | cons p rest ih =>
    unfold dSet
    by_cases hp : (p.1 == k') = true
    · have hpk : (p.1 == k) = false := by
        rw [beq_eq_false_iff_ne, eq_of_beq hp]
        exact fun hh => h hh.symm
      rw [if_pos hp, dGet_cons, dGet_cons, hk, hpk]
      simp
    · rw [if_neg hp, dGet_cons, dGet_cons]
      by_cases hq : (p.1 == k) = true
      · rw [hq]
        simp
      · rw [if_neg hq, if_neg hq]
        exact ih

/-- Adding an id under one key preserves membership under any key. -/
theorem mem_dGetD_ndxAdd {d : List (String × List String)} {k : String}
    {y : String} (k' x : String) (h : y ∈ dGetD d k []) :
    y ∈ dGetD (ndxAdd d k' x) k [] := by
  unfold ndxAdd
  by_cases hk : k = k'
  · subst hk
    unfold dGetD
    rw [dGet_dSet]
    exact mem_sAdd_of_mem x h
  · unfold dGetD
    rw [dGet_dSet_ne _ _ _ _ hk]
    exact h

theorem mem_dGetD_ndxAdd_self (d : List (String × List String)) (k x : String) :
    x ∈ dGetD (ndxAdd d k x) k [] := by
  unfold ndxAdd dGetD
  rw [dGet_dSet]
  exact mem_sAdd_self _ x

/-- The inner word-fold of `build_name_index` preserves index membership. -/
theorem word_fold_mono (ws : List String) (nid : String)
    {d : List (String × List String)} {k y : String}
    (h : y ∈ dGetD d k []) :
    y ∈ dGetD (ws.foldl (fun d w => if 1 < w.length then ndxAdd d w nid else d) d) k [] := by
  induction ws generalizing d with
  | nil => exact h
  | cons w rest ih =>
    rw [List.foldl_cons]
    by_cases hw : 1 < w.length
    · rw [if_pos hw]
      exact ih (mem_dGetD_ndxAdd w nid h)
    · rw [if_neg hw]
      exact ih h

/-- The inner word-fold of `build_name_index` records `nid` under every
token of length > 1. -/
theorem word_fold_adds (ws : List String) (nid : String)
    (d : List (String × List String)) {w : String}
    (hw : w ∈ ws) (hl : 1 < w.length) :
    nid ∈ dGetD (ws.foldl (fun d w => if 1 < w.length then ndxAdd d w nid else d) d) w [] := by
  induction ws generalizing d with
  | nil => exact absurd hw (by simp)
  | cons w' rest ih =>
    rw [List.foldl_cons]
    rcases List.mem_cons.mp hw with rfl | hr
    · rw [if_pos hl]
      exact word_fold_mono rest nid (mem_dGetD_ndxAdd_self d w nid)
    · by_cases hw' : 1 < w'.length
      · rw [if_pos hw']; exact ih _ hr
      · rw [if_neg hw']; exact ih _ hr

/-- The outer node step of `build_name_index` preserves index membership. -/
theorem node_step_mono (n : GraphNode)
    {d : List (String × List String)} {k y : String}
    (h : y ∈ dGetD d k []) :
    y ∈ dGetD ((pyWords n.name).foldl
      (fun d w => if 1 < w.length then ndxAdd d w n.id else d)
      (ndxAdd d n.name n.id)) k [] :=
  word_fold_mono _ _ (mem_dGetD_ndxAdd n.name n.id h)

/-- The outer node fold of `build_name_index` preserves index membership. -/
theorem node_fold_mono (nodes : List GraphNode)
    {d : List (String × List String)} {k y : String}
    (h : y ∈ dGetD d k []) :
    y ∈ dGetD (nodes.foldl (fun d n =>
      (pyWords n.name).foldl
        (fun d w => if 1 < w.length then ndxAdd d w n.id else d)
        (ndxAdd d n.name n.id)) d) k [] := by
  induction nodes generalizing d with
  | nil => exact h
  | cons m rest ih => exact ih (node_step_mono m h)

/-- `build_name_index` indexes every node id under each of its name's
tokens of length > 1. -/
theorem build_name_index_mem (nodes : List GraphNode) {n : GraphNode}
    (hn : n ∈ nodes) {w : String} (hw : w ∈ pyWords n.name) (hl : 1 < w.length) :
    n.id ∈ dGetD (build_name_index nodes) w [] := by
  unfold build_name_index
  suffices h : ∀ d, n.id ∈ dGetD (nodes.foldl (fun d n =>
      (pyWords n.name).foldl
        (fun d w => if 1 < w.length then ndxAdd d w n.id else d)
        (ndxAdd d n.name n.id)) d) w [] from h []
  intro d
  induction nodes generalizing d with
  | nil => exact absurd hn (by simp)
  | cons m rest ih =>
    rw [List.foldl_cons]
    rcases List.mem_cons.mp hn with rfl | hr
    · exact node_fold_mono rest (word_fold_adds _ _ _ hw hl)
    · exact ih hr _

/-- Accumulated candidates survive the rest of the `search_candidates` fold. -/
theorem cand_fold_mono (ndx : List (String × List String)) (q : String)
    {cand : List String} {x : String} (h : x ∈ cand) :
    x ∈ ndx.foldl (fun cand p =>
      if strContains (pyLower p.1) (pyLower q) then sUnion cand p.2 else cand) cand := by
  induction ndx generalizing cand with
  | nil => exact h
  | cons p rest ih =>
    rw [List.foldl_cons]
    by_cases hc : strContains (pyLower p.1) (pyLower q) = true
    · rw [if_pos hc]
      exact ih (mem_sUnion_left p.2 h)
    · rw [if_neg hc]
      exact ih h

/-- Any id stored under a matching index key lands in the candidate set. -/
theorem mem_search_candidates {ndx : List (String × List String)} {q : String}
    {p : String × List String} {x : String}
    (hp : p ∈ ndx) (hcond : strContains (pyLower p.1) (pyLower q) = true)
    (hx : x ∈ p.2) : x ∈ search_candidates ndx q := by
  unfold search_candidates
  suffices h : ∀ cand, x ∈ ndx.foldl (fun cand p =>
      if strContains (pyLower p.1) (pyLower q) then sUnion cand p.2 else cand) cand from h []
  intro cand
  induction ndx generalizing cand with
  | nil => exact absurd hp (by simp)
  | cons p' rest ih =>
    rw [List.foldl_cons]
    rcases List.mem_cons.mp hp with rfl | hr
    · rw [if_pos hcond]
      exact cand_fold_mono rest q (mem_sUnion_right cand hx)
    · by_cases hc : strContains (pyLower p'.1) (pyLower q) = true
      · rw [if_pos hc]; exact ih hr _
      · rw [if_neg hc]; exact ih hr _

theorem dGet_of_mem_nodup {κ α : Type} [BEq κ] [LawfulBEq κ]
    {d : List (κ × α)} {p : κ × α}
    (hkeys : (d.map Prod.fst).Nodup) (hmem : p ∈ d) : dGet d p.1 = some p.2 := by
  induction d with
  | nil => exact absurd hmem (by simp)
  | cons q rest ih =>
    simp only [List.map_cons, List.nodup_cons] at hkeys
    obtain ⟨hq1, hrest⟩ := hkeys
    rcases List.mem_cons.mp hmem with rfl | hr
    · rw [dGet_cons]
      simp
    · rw [dGet_cons]
      have hne : (q.1 == p.1) = false := by
        rw [beq_eq_false_iff_ne]
        intro hh
        exact hq1 (hh ▸ List.mem_map_of_mem Prod.fst hr)
      rw [hne]
      simp only [Bool.false_eq_true, if_false]
      exact ih hrest hr

theorem perm_stableInsert {α : Type} (le : α → α → Bool) (x : α) (l : List α) :
    (stableInsert le x l).Perm (x :: l) := by
  induction l with
  | nil => rfl
  | cons y ys ih =>
    unfold stableInsert
    by_cases h : le x y = true
    · rw [if_pos h]
    · rw [if_neg h]
      exact (ih.cons y).trans (List.Perm.swap x y ys)

theorem perm_stableSort {α : Type} (le : α → α → Bool) (l : List α) :
    (stableSort le l).Perm l := by
  induction l with
  | nil => rfl
  | cons x xs ih => exact (perm_stableInsert le x (stableSort le xs)).trans (ih.cons x)

theorem pairwise_stableInsert {α : Type} {le : α → α → Bool}
    (htrans : ∀ a b c, le a b = true → le b c = true → le a c = true)
    (htot : ∀ a b, le a b = true ∨ le b a = true) (x : α) (l : List α)
    (hl : l.Pairwise (fun a b => le a b = true)) :
    (stableInsert le x l).Pairwise (fun a b => le a b = true) := by
  induction l with
  | nil => simp [stableInsert]
  | cons y ys ih =>
    rw [List.pairwise_cons] at hl
    obtain ⟨hy, hys⟩ := hl
    unfold stableInsert
    by_cases h : le x y = true
    · rw [if_pos h]
      refine List.Pairwise.cons ?_ (List.Pairwise.cons hy hys)
      intro z hz
      rcases List.mem_cons.mp hz with rfl | hz'
      · exact h
      · exact htrans x y z h (hy z hz')
    · rw [if_neg h]
      refine List.Pairwise.cons ?_ (ih hys)
      intro z hz
      have hz2 := (perm_stableInsert le x ys).mem_iff.mp hz
      rcases List.mem_cons.mp hz2 with rfl | hz'
      · rcases htot y z with hyz | hzy
        · exact hyz
        · exact absurd hzy h
      · exact hy z hz'

theorem pairwise_stableSort {α : Type} {le : α → α → Bool}
    (htrans : ∀ a b c, le a b = true → le b c = true → le a c = true)
    (htot : ∀ a b, le a b = true ∨ le b a = true) (l : List α) :
    (stableSort le l).Pairwise (fun a b => le a b = true) := by
  induction l with
  | nil => simp [stableSort]
  | cons x xs ih => exact pairwise_stableInsert htrans htot x _ ih

/-- C6: a node whose name has a whitespace token `w` of length > 1 is in
the candidate set of `search_nodes w` before ranking and truncation, and
(for a well-formed node dict) among the returned results whenever the
limit is at least the number of candidates. -/
theorem c6_substring_search_guarantee (g : RecipeGraph) (n : GraphNode) (w : String)
    (hn : n ∈ g.nodes.map Prod.snd)
    (hw : w ∈ pyWords n.name) (hl : 1 < w.length) :
    n.id ∈ search_candidates (build_indexes g).name_index w ∧
    ((∀ p ∈ g.nodes, p.1 = p.2.id) → (g.nodes.map Prod.fst).Nodup →
      ∀ limit, (search_candidates (build_indexes g).name_index w).length ≤ limit →
        n ∈ search_nodes g (build_indexes g) w none limit) := by
  have hidx : n.id ∈ dGetD (build_name_index (g.nodes.map Prod.snd)) w [] :=
    build_name_index_mem _ hn hw hl
  have hcand : n.id ∈ search_candidates (build_indexes g).name_index w := by
    unfold dGetD at hidx
    cases hd : dGet (build_name_index (g.nodes.map Prod.snd)) w with
    | none =>
      rw [hd] at hidx
      exact absurd hidx (by simp)
    | some s =>
      rw [hd] at hidx
      simp only [Option.getD_some] at hidx
      obtain ⟨p, hpmem, hpk, hpv⟩ := dGet_mem hd
      exact mem_search_candidates hpmem (by rw [hpk]; exact strContains_self _)
        (by rw [hpv]; exact hidx)
  refine ⟨hcand, ?_⟩
  intro hkeyinv hkeys limit hlim
  obtain ⟨p, hpmem, hpv⟩ := List.mem_map.mp hn
  have hget : get_node g n.id = some n := by
    have h1 := dGet_of_mem_nodup hkeys hpmem
    have h2 : p.1 = n.id := by rw [hkeyinv p hpmem, hpv]
    unfold get_node
    rw [← h2, h1, hpv]
  simp only [search_nodes]
  have hmemN : n ∈ (search_candidates (build_indexes g).name_index w).filterMap
      (fun nid => get_node g nid) :=
    List.mem_filterMap.mpr ⟨n.id, hcand, hget⟩
  have hperm := perm_stableSort (fun a b =>
        decide (_calculate_name_similarity w b.name ≤
                _calculate_name_similarity w a.name))
    ((search_candidates (build_indexes g).name_index w).filterMap
        (fun nid => get_node g nid))
  have hlen : (stableSort (fun a b =>
        decide (_calculate_name_similarity w b.name ≤
                _calculate_name_similarity w a.name))
      ((search_candidates (build_indexes g).name_index w).filterMap
        (fun nid => get_node g nid))).length ≤ limit := by
    rw [hperm.length_eq]
    exact le_trans (List.length_filterMap_le _ _) hlim
  rw [List.take_of_length_le hlen]
  exact hperm.mem_iff.mpr hmemN

/-- Witness for C6: the node named "tomato soup" is found for the token
"soup", both in the candidate set and in the final result list. -/
theorem c6_witness :
    ((⟨"dish_ts", .dish, "tomato soup", []⟩ : GraphNode) ∈ c6Graph.nodes.map Prod.snd ∧
     "soup" ∈ pyWords "tomato soup" ∧ 1 < "soup".length) ∧
    ("dish_ts" ∈ search_candidates (build_indexes c6Graph).name_index "soup" ∧
     ((∀ p ∈ c6Graph.nodes, p.1 = p.2.id) → (c6Graph.nodes.map Prod.fst).Nodup →
      ∀ limit, (search_candidates (build_indexes c6Graph).name_index "soup").length ≤ limit →
        (⟨"dish_ts", .dish, "tomato soup", []⟩ : GraphNode) ∈
          search_nodes c6Graph (build_indexes c6Graph) "soup" none limit)) :=
  ⟨⟨by decide, by decide, by decide⟩,
    c6_substring_search_guarantee c6Graph ⟨"dish_ts", .dish, "tomato soup", []⟩ "soup"
      (by decide) (by decide) (by decide)⟩

theorem dGet_isSome_of_mem_keys {κ α : Type} [BEq κ] [LawfulBEq κ]
    {d : List (κ × α)} {k : κ}
    (h : k ∈ d.map Prod.fst) : (dGet d k).isSome = true := by
  induction d with
  | nil => exact absurd h (by simp)
  | cons q rest ih =>
    rw [dGet_cons]
    by_cases hq : (q.1 == k) = true
    · rw [if_pos hq]; rfl
    · rw [if_neg hq]
      simp only [List.map_cons, List.mem_cons] at h
      rcases h with rfl | hr
      · exact absurd (beq_self_eq_true q.1) hq
      · exact ih hr

theorem mem_dSet_self {κ α : Type} [BEq κ] [LawfulBEq κ]
    (d : List (κ × α)) (k : κ) (v : α) : (k, v) ∈ dSet d k v := by
  induction d with
  | nil => simp [dSet]
  | cons q rest ih =>
    unfold dSet
    split
    · simp
    · simp [ih]

theorem mem_dSet_of_ne {κ α : Type} [BEq κ] [LawfulBEq κ]
    {d : List (κ × α)} {p : κ × α} (k : κ) (v : α)
    (hp : p ∈ d) (hne : p.1 ≠ k) : p ∈ dSet d k v := by
  induction d with
  | nil => exact absurd hp (by simp)
  | cons q rest ih =>
    unfold dSet
    rcases List.mem_cons.mp hp with rfl | hr
    · have : (p.1 == k) = false := beq_eq_false_iff_ne.mpr hne
      rw [this]
      simp
    · split
      · next h =>
        have : q.1 = k := eq_of_beq h
        simp [hr]
      · simp [ih hr]

theorem mem_dSet_elim_nodup {κ α : Type} [BEq κ] [LawfulBEq κ]
    {d : List (κ × α)} {p : κ × α} {k : κ} {v : α}
    (hnodup : (d.map Prod.fst).Nodup) (hp : p ∈ dSet d k v) :
    p = (k, v) ∨ (p ∈ d ∧ p.1 ≠ k) := by
  induction d with
  | nil =>
    simp only [dSet, List.mem_singleton] at hp
    exact Or.inl hp
  | cons q rest ih =>
    simp only [List.map_cons, List.nodup_cons] at hnodup
    obtain ⟨hq1, hrest⟩ := hnodup
    unfold dSet at hp
    by_cases hqk : (q.1 == k) = true
    · rw [if_pos hqk] at hp
      rcases List.mem_cons.mp hp with rfl | hr
      · exact Or.inl rfl
      · refine Or.inr ⟨by simp [hr], ?_⟩
        intro hpk
        rw [← eq_of_beq hqk] at hpk
        exact hq1 (hpk ▸ List.mem_map_of_mem Prod.fst hr)
    · rw [if_neg hqk] at hp
      rcases List.mem_cons.mp hp with rfl | hr
      · refine Or.inr ⟨by simp, ?_⟩
        intro hpk
        exact hqk (by simp [hpk])
      · rcases ih hrest hr with h1 | ⟨h2, h3⟩
        · exact Or.inl h1
        · exact Or.inr ⟨by simp [h2], h3⟩

theorem keys_dSet_present {κ α : Type} [BEq κ] [LawfulBEq κ]
    {d : List (κ × α)} {k : κ} (v : α)
    (h : k ∈ d.map Prod.fst) : (dSet d k v).map Prod.fst = d.map Prod.fst := by
  induction d with
  | nil => exact absurd h (by simp)
  | cons q rest ih =>
    unfold dSet
    by_cases hqk : (q.1 == k) = true
    · rw [if_pos hqk]
      simp [eq_of_beq hqk]
    · rw [if_neg hqk]
      simp only [List.map_cons, List.mem_cons] at h
      rcases h with rfl | hr
      · exact absurd (beq_self_eq_true q.1) hqk
      · simp [ih hr]

theorem dedup_step_inv (uniq : List (String × Recommendation))
    (seen : List Recommendation) (r : Recommendation)
    (hinv : DedupInv uniq seen) :
    DedupInv (match dGet uniq r.item.name with
      | none => dSet uniq r.item.name r
      | some cur => if cur.score < r.score then dSet uniq r.item.name r else uniq)
      (seen ++ [r]) := by
  obtain ⟨hkeys, hentries, hcover⟩ := hinv
  cases hd : dGet uniq r.item.name with
  | none =>
    have habs : r.item.name ∉ uniq.map Prod.fst := by
      intro hmem
      have hsome := dGet_isSome_of_mem_keys (d := uniq) hmem
      rw [hd] at hsome
      exact absurd hsome (by simp)
    rw [dSet_absent hd]
    refine ⟨?_, ?_, ?_⟩
    · simpa using List.Nodup.append hkeys (by simp)
        (by simpa [List.disjoint_singleton] using habs)
    · intro p hp
      rcases List.mem_append.mp hp with hold | hnew
      · obtain ⟨h1, h2, h3⟩ := hentries p hold
        refine ⟨h1, by simp [h2], ?_⟩
        intro r' hr' hname
        rcases List.mem_append.mp hr' with hseen | hsingle
        · exact h3 r' hseen hname
        · simp only [List.mem_singleton] at hsingle
          subst hsingle
          exact absurd (hname ▸ List.mem_map_of_mem Prod.fst hold) (hname ▸ habs)
      · simp only [List.mem_singleton] at hnew
        subst hnew
        refine ⟨rfl, by simp, ?_⟩
        intro r' hr' hname
        rcases List.mem_append.mp hr' with hseen | hsingle
        · obtain ⟨q, hq, hq1⟩ := hcover r' hseen
          refine absurd ?_ habs
          have hqname : q.1 = r.item.name := by rw [hq1, hname]
          exact hqname ▸ List.mem_map_of_mem Prod.fst hq
        · simp only [List.mem_singleton] at hsingle
          subst hsingle
          exact le_refl _
    · intro r' hr'
      rcases List.mem_append.mp hr' with hseen | hsingle
      · obtain ⟨q, hq, hq1⟩ := hcover r' hseen
        exact ⟨q, by simp [hq], hq1⟩
      · simp only [List.mem_singleton] at hsingle
        subst hsingle
        exact ⟨(r'.item.name, r'), by simp, rfl⟩
  | some cur =>
    obtain ⟨pc, hpcmem, hpck, hpcv⟩ := dGet_mem hd
    change DedupInv (if cur.score < r.score then dSet uniq r.item.name r else uniq)
      (seen ++ [r])
    by_cases hlt : cur.score < r.score
    · rw [if_pos hlt]
      have hkmem : r.item.name ∈ uniq.map Prod.fst :=
        hpck ▸ List.mem_map_of_mem Prod.fst hpcmem
      refine ⟨?_, ?_, ?_⟩
      · rw [keys_dSet_present r hkmem]
        exact hkeys
      · intro p hp
        rcases mem_dSet_elim_nodup hkeys hp with rfl | ⟨hold, hne⟩
        · refine ⟨rfl, by simp, ?_⟩
          intro r' hr' hname
          rcases List.mem_append.mp hr' with hseen | hsingle
          · have h3 := (hentries pc hpcmem).2.2 r' hseen (by rw [hname, hpck])
            rw [hpcv] at h3
            exact le_of_lt (lt_of_le_of_lt h3 hlt)
          · simp only [List.mem_singleton] at hsingle
            subst hsingle
            exact le_refl _
        · obtain ⟨h1, h2, h3⟩ := hentries p hold
          refine ⟨h1, by simp [h2], ?_⟩
          intro r' hr' hname
          rcases List.mem_append.mp hr' with hseen | hsingle
          · exact h3 r' hseen hname
          · simp only [List.mem_singleton] at hsingle
            subst hsingle
            exact absurd hname.symm hne
      · intro r' hr'
        rcases List.mem_append.mp hr' with hseen | hsingle
        · obtain ⟨q, hq, hq1⟩ := hcover r' hseen
          by_cases hqsame : q.1 = r.item.name
          · exact ⟨(r.item.name, r), mem_dSet_self uniq r.item.name r, hqsame ▸ hq1⟩
          · exact ⟨q, mem_dSet_of_ne _ _ hq hqsame, hq1⟩
        · simp only [List.mem_singleton] at hsingle
          subst hsingle
          exact ⟨(r'.item.name, r'), mem_dSet_self uniq r'.item.name r', rfl⟩
    · rw [if_neg hlt]
      refine ⟨hkeys, ?_, ?_⟩
      · intro p hp
        obtain ⟨h1, h2, h3⟩ := hentries p hp
        refine ⟨h1, by simp [h2], ?_⟩
        intro r' hr' hname
        rcases List.mem_append.mp hr' with hseen | hsingle
        · exact h3 r' hseen hname
        · simp only [List.mem_singleton] at hsingle
          subst hsingle
          have hpfirst : dGet uniq p.1 = some p.2 := dGet_of_mem_nodup hkeys hp
          rw [← hname] at hpfirst
          rw [hd] at hpfirst
          rw [← Option.some.inj hpfirst]
          exact le_of_not_lt hlt
      · intro r' hr'
        rcases List.mem_append.mp hr' with hseen | hsingle
        · exact hcover r' hseen
        · simp only [List.mem_singleton] at hsingle
          subst hsingle
          exact ⟨pc, hpcmem, hpck⟩

theorem dedup_fold_inv (recs : List Recommendation) :
    ∀ (uniq : List (String × Recommendation)) (seen : List Recommendation),
    DedupInv uniq seen →
    DedupInv (recs.foldl (fun uniq r =>
      match dGet uniq r.item.name with
      | none => dSet uniq r.item.name r
      | some cur => if cur.score < r.score then dSet uniq r.item.name r else uniq)
      uniq) (seen ++ recs) := by
  induction recs with
  | nil => intro uniq seen h; simpa using h
  | cons r rest ih =>
    intro uniq seen h
    rw [List.foldl_cons]
    have hstep := dedup_step_inv uniq seen r h
    have := ih _ (seen ++ [r]) hstep
    simpa using this

theorem dedup_by_name_max_inv (recs : List Recommendation) :
    DedupInv (dedup_by_name_max recs) recs := by
  have h := dedup_fold_inv recs [] [] ⟨by simp, by simp, by simp⟩
  simpa [dedup_by_name_max] using h

theorem byRecScoreDesc_trans : ∀ a b c : Recommendation,
    byRecScoreDesc a b = true → byRecScoreDesc b c = true →
    byRecScoreDesc a c = true := by
  intro a b c hab hbc
  simp only [byRecScoreDesc, decide_eq_true_eq] at *
  exact le_trans hbc hab

theorem byRecScoreDesc_total : ∀ a b : Recommendation,
    byRecScoreDesc a b = true ∨ byRecScoreDesc b a = true := by
  intro a b
  simp only [byRecScoreDesc, decide_eq_true_eq]
  exact le_total b.score a.score

/-- The full specification of `_merge_recommendations`: duplicate-free
item names, score-descending order, and every result is an input entry of
maximal score among the inputs sharing its name. -/
theorem merge_recommendations_spec (recs : List Recommendation) (maxN : Nat) :
    ((_merge_recommendations recs maxN).map (fun r => r.item.name)).Nodup ∧
    (_merge_recommendations recs maxN).Pairwise (fun a b => b.score ≤ a.score) ∧
    (∀ r ∈ _merge_recommendations recs maxN, r ∈ recs ∧
      ∀ r' ∈ recs, r'.item.name = r.item.name → r'.score ≤ r.score) := by
  obtain ⟨hkeys, hentries, _⟩ := dedup_by_name_max_inv recs
  have hperm := perm_stableSort byRecScoreDesc ((dedup_by_name_max recs).map Prod.snd)
  have hnamesfinal : ((dedup_by_name_max recs).map Prod.snd).map (fun r => r.item.name) =
      (dedup_by_name_max recs).map Prod.fst := by
    rw [List.map_map]
    apply List.map_congr_left
    intro p hp
    exact (hentries p hp).1
  refine ⟨?_, ?_, ?_⟩
  · unfold _merge_recommendations
    rw [List.map_take]
    have hnd : ((stableSort byRecScoreDesc
        ((dedup_by_name_max recs).map Prod.snd)).map (fun r => r.item.name)).Nodup := by
      rw [(hperm.map (fun r => r.item.name)).nodup_iff, hnamesfinal]
      exact hkeys
    exact List.Nodup.sublist (List.take_sublist _ _) hnd
  · unfold _merge_recommendations
    exact List.Pairwise.sublist (List.take_sublist _ _)
      ((pairwise_stableSort byRecScoreDesc_trans byRecScoreDesc_total _).imp
        (fun h => of_decide_eq_true h))
  · intro r hr
    unfold _merge_recommendations at hr
    have hr2 : r ∈ (dedup_by_name_max recs).map Prod.snd :=
      hperm.mem_iff.mp (List.mem_of_mem_take hr)
    obtain ⟨p, hp, hpv⟩ := List.mem_map.mp hr2
    obtain ⟨h1, h2, h3⟩ := hentries p hp
    subst hpv
    exact ⟨h2, fun r' hr' hname => h3 r' hr' (hname.trans h1)⟩

/-- C5 amended: `_merge_recommendations` (hence `hybrid_recommend`) and
`recommend_ingredients_by_dish` deduplicate by item name keeping the
maximal score and are sorted score-descending, but
`recommend_similar_dishes` does not deduplicate (see the counterexample):
it only inherits the score-descending order of `find_similar_dishes`. -/
theorem c5_dedup_and_ordering :
    (∀ recs maxN,
      ((_merge_recommendations recs maxN).map (fun r => r.item.name)).Nodup ∧
      (_merge_recommendations recs maxN).Pairwise (fun a b => b.score ≤ a.score) ∧
      (∀ r ∈ _merge_recommendations recs maxN, r ∈ recs ∧
        ∀ r' ∈ recs, r'.item.name = r.item.name → r'.score ≤ r.score)) ∧
    (∀ g st ps dish_name maxN,
      ((recommend_ingredients_by_dish g st ps dish_name maxN).map
        (fun r => r.item.name)).Nodup ∧
      (recommend_ingredients_by_dish g st ps dish_name maxN).Pairwise
        (fun a b => b.score ≤ a.score)) ∧
    (∀ g st prefs maxN,
      ((hybrid_recommend g st prefs maxN).map (fun r => r.item.name)).Nodup ∧
      (hybrid_recommend g st prefs maxN).Pairwise (fun a b => b.score ≤ a.score)) ∧
    (∀ g st dish_name maxN,
      (recommend_similar_dishes g st dish_name maxN).Pairwise
        (fun a b => b.score ≤ a.score)) := by
  refine ⟨merge_recommendations_spec, ?_, ?_, ?_⟩
  · intro g st ps dish_name maxN
    unfold recommend_ingredients_by_dish
    by_cases hh : (search_nodes g st dish_name (some NodeType.dish) 10).isEmpty = true
    · rw [if_pos hh]
      exact ⟨by simp, by simp⟩
    · rw [if_neg hh]
      obtain ⟨h1, h2, _⟩ := merge_recommendations_spec _ maxN
      exact ⟨h1, h2⟩
  · intro g st prefs maxN
    unfold hybrid_recommend
    obtain ⟨h1, h2, _⟩ := merge_recommendations_spec _ maxN
    exact ⟨h1, h2⟩
  · intro g st dish_name maxN
    have hsim : (find_similar_dishes g st dish_name 5).Pairwise
        (fun (a b : GraphNode × ℚ) => b.2 ≤ a.2) := by
      unfold find_similar_dishes
      by_cases hh : (search_nodes g st dish_name (some NodeType.dish) 10).isEmpty = true
      · rw [if_pos hh]
        simp
      · rw [if_neg hh]
        refine List.Pairwise.sublist (List.take_sublist _ _) ?_
        exact (pairwise_stableSort
          (by intro a b c hab hbc
              simp only [byScoreDesc, decide_eq_true_eq] at *
              exact le_trans hbc hab)
          (by intro a b
              simp only [byScoreDesc, decide_eq_true_eq]
              exact le_total b.2 a.2) _).imp (fun h => of_decide_eq_true h)
    unfold recommend_similar_dishes
    refine List.Pairwise.sublist (List.take_sublist _ _) ?_
    exact hsim.map _ (fun a b h => h)

/-- C5 counterexample: `recommend_similar_dishes` returns the dish "stew"
twice (once per SIMILAR_TO edge found), so its result list is not
deduplicated by item name — refuting the claim for "every recommendation
result list". -/
theorem c5_counterexample :
    ((recommend_similar_dishes c5Graph (build_indexes c5Graph) "tomato" 10).map
      (fun r => r.item.name)) = ["stew", "stew"] ∧
    ¬ ((recommend_similar_dishes c5Graph (build_indexes c5Graph) "tomato" 10).map
      (fun r => r.item.name)).Nodup := by
  constructor
  · decide
  · decide

/-- Witness for the amended C5 theorem: applied to a concrete two-entry
list sharing one item name, the merge keeps one maximal entry. -/
theorem c5_amended_witness :
    (((_merge_recommendations
        [⟨⟨"d1", .dish, "soup", []⟩, 1, "r1", []⟩,
         ⟨⟨"d1", .dish, "soup", []⟩, 2, "r2", []⟩] 10).map
        (fun r => r.item.name)).Nodup ∧
     (_merge_recommendations
        [⟨⟨"d1", .dish, "soup", []⟩, 1, "r1", []⟩,
         ⟨⟨"d1", .dish, "soup", []⟩, 2, "r2", []⟩] 10).Pairwise
        (fun a b => b.score ≤ a.score) ∧
     (∀ r ∈ _merge_recommendations
        [⟨⟨"d1", .dish, "soup", []⟩, 1, "r1", []⟩,
         ⟨⟨"d1", .dish, "soup", []⟩, 2, "r2", []⟩] 10,
        r ∈ [⟨⟨"d1", .dish, "soup", []⟩, 1, "r1", []⟩,
             (⟨⟨"d1", .dish, "soup", []⟩, 2, "r2", []⟩ : Recommendation)] ∧
        ∀ r' ∈ [⟨⟨"d1", .dish, "soup", []⟩, 1, "r1", []⟩,
                (⟨⟨"d1", .dish, "soup", []⟩, 2, "r2", []⟩ : Recommendation)],
          r'.item.name = r.item.name → r'.score ≤ r.score)) ∧
    _merge_recommendations
        [⟨⟨"d1", .dish, "soup", []⟩, 1, "r1", []⟩,
         ⟨⟨"d1", .dish, "soup", []⟩, 2, "r2", []⟩] 10 =
      [⟨⟨"d1", .dish, "soup", []⟩, 2, "r2", []⟩] :=
  ⟨c5_dedup_and_ordering.1
      [⟨⟨"d1", .dish, "soup", []⟩, 1, "r1", []⟩,
       ⟨⟨"d1", .dish, "soup", []⟩, 2, "r2", []⟩] 10,
    by decide⟩

/-- C8: whenever a name resolves to zero nodes, every query-engine and
recommendation operation returns the empty list (no exception is modelled
because none is raised: each operation short-circuits). -/
theorem c8_empty_resolution_empty_result (g : RecipeGraph) (st : GraphStorage)
    (name : String)
    (hres : ∀ ty, search_nodes g st name (some ty) 10 = []) :
    (∀ m, find_ingredient_pairs g st name m = []) ∧
    (∀ ra, find_dishes_by_ingredients g st [name] ra = []) ∧
    (∀ lim, find_similar_dishes g st name lim = []) ∧
    find_cooking_methods_for_ingredient g st name = [] ∧
    find_ingredients_by_cooking_method g st name = [] ∧
    get_ingredient_substitution_suggestions g st name = [] ∧
    (∀ other d, find_path_between_ingredients g st name other d = []) ∧
    (∀ k, recommend_dishes_by_ingredients g st [name] k = []) ∧
    (∀ ps k, recommend_ingredients_by_dish g st ps name k = []) ∧
    (∀ k, recommend_similar_dishes g st name k = []) ∧
    (∀ k, recommend_by_cooking_method g st name k = []) ∧
    (∀ k, recommend_by_category g st name k = []) ∧
    (∀ k, recommend_ingredient_substitutions g st name k = []) := by
  have hdish := hres NodeType.dish
  have hing := hres NodeType.ingredient
  have hmeth := hres NodeType.cooking_method
  have hcat := hres NodeType.category
  have h2 : ∀ ra, find_dishes_by_ingredients g st [name] ra = [] := by
    intro ra
    simp [find_dishes_by_ingredients, hing]
  have h3 : ∀ lim, find_similar_dishes g st name lim = [] := by
    intro lim
    simp [find_similar_dishes, hdish]
  have h5 : find_ingredients_by_cooking_method g st name = [] := by
    simp [find_ingredients_by_cooking_method, hmeth]
  have h6 : get_ingredient_substitution_suggestions g st name = [] := by
    simp [get_ingredient_substitution_suggestions, hing]
  refine ⟨?_, h2, h3, ?_, h5, h6, ?_, ?_, ?_, ?_, ?_, ?_, ?_⟩
  · intro m
    simp [find_ingredient_pairs, hing]
  · simp [find_cooking_methods_for_ingredient, hing]
  · intro other d
    simp [find_path_between_ingredients, hing]
  · intro k
    simp [recommend_dishes_by_ingredients, h2 false, stableSort]
  · intro ps k
    simp [recommend_ingredients_by_dish, hdish]
  · intro k
    simp [recommend_similar_dishes, h3 5]
  · intro k
    simp [recommend_by_cooking_method, h5, stableSort]
  · intro k
    simp [recommend_by_category, hcat, stableSort]
  · intro k
    simp [recommend_ingredient_substitutions, h6]

/-- Witness for C8: on the empty graph the name "x" resolves to nothing
and all operations return empty lists. -/
theorem c8_witness :
    (∀ ty, search_nodes emptyGraph (build_indexes emptyGraph) "x" (some ty) 10 = []) ∧
    ((∀ m, find_ingredient_pairs emptyGraph (build_indexes emptyGraph) "x" m = []) ∧
     (∀ ra, find_dishes_by_ingredients emptyGraph (build_indexes emptyGraph) ["x"] ra = []) ∧
     (∀ lim, find_similar_dishes emptyGraph (build_indexes emptyGraph) "x" lim = []) ∧
     find_cooking_methods_for_ingredient emptyGraph (build_indexes emptyGraph) "x" = [] ∧
     find_ingredients_by_cooking_method emptyGraph (build_indexes emptyGraph) "x" = [] ∧
     get_ingredient_substitution_suggestions emptyGraph (build_indexes emptyGraph) "x" = [] ∧
     (∀ other d, find_path_between_ingredients emptyGraph (build_indexes emptyGraph) "x" other d = []) ∧
     (∀ k, recommend_dishes_by_ingredients emptyGraph (build_indexes emptyGraph) ["x"] k = []) ∧
     (∀ ps k, recommend_ingredients_by_dish emptyGraph (build_indexes emptyGraph) ps "x" k = []) ∧
     (∀ k, recommend_similar_dishes emptyGraph (build_indexes emptyGraph) "x" k = []) ∧
     (∀ k, recommend_by_cooking_method emptyGraph (build_indexes emptyGraph) "x" k = []) ∧
     (∀ k, recommend_by_category emptyGraph (build_indexes emptyGraph) "x" k = []) ∧
     (∀ k, recommend_ingredient_substitutions emptyGraph (build_indexes emptyGraph) "x" k = [])) :=
  ⟨by intro ty; cases ty <;> decide,
    c8_empty_resolution_empty_result emptyGraph (build_indexes emptyGraph) "x"
      (by intro ty; cases ty <;> decide)⟩

theorem ReachIn.succOf {g : RecipeGraph} {x z : String} {k : Nat}
    (h : ReachIn g x k z) : ReachIn g x (k + 1) z := by
  induction h with
  | refl x k => exact ReachIn.refl x (k + 1)
  | step n hn _ ih => exact ReachIn.step n hn ih

theorem ReachIn.mono_le {g : RecipeGraph} {x z : String} {k k' : Nat}
    (h : ReachIn g x k z) (hk : k ≤ k') : ReachIn g x k' z := by
  induction hk with
  | refl => exact h
  | step _ ih => exact ih.succOf

theorem reachIn_iff_exists_walk {g : RecipeGraph} {x z : String} {k : Nat} :
    ReachIn g x k z ↔ ∃ ns, IsWalkFrom g x ns z ∧ ns.length ≤ k := by
  constructor
  · intro h
    induction h with
    | refl x k => exact ⟨[], rfl, by simp⟩
    | step n hn _ ih =>
      obtain ⟨ns, hw, hlen⟩ := ih
      exact ⟨n :: ns, ⟨hn, hw⟩, by simpa using Nat.succ_le_succ hlen⟩
  · rintro ⟨ns, hw, hlen⟩
    induction ns generalizing x k with
    | nil =>
      have hxz : x = z := hw
      subst hxz
      exact ReachIn.refl x k
    | cons n rest ih =>
      obtain ⟨hn, hw'⟩ := hw
      simp only [List.length_cons] at hlen
      have hr := ih hw' (Nat.le_refl rest.length)
      exact (ReachIn.step n hn hr).mono_le hlen

/-- Decompose a non-trivial reachability fact at its last hop. -/
theorem reach_last {g : RecipeGraph} {x z : String} {j : Nat}
    (h : ReachIn g x j z) :
    x = z ∨ ∃ (w : String) (k : Nat), k + 1 ≤ j ∧ ReachIn g x k w ∧
      ∃ n ∈ get_neighbors g w none, n.id = z := by
  induction h with
  | refl x k => exact Or.inl rfl
  | step n hn h ih =>
    rcases ih with rfl | ⟨w, k, hk, hr, n', hn', hid⟩
    · exact Or.inr ⟨_, 0, by omega, ReachIn.refl _ 0, n, hn, rfl⟩
    · exact Or.inr ⟨w, k + 1, by omega, ReachIn.step n hn hr, n', hn', hid⟩

/-- Appending one further neighbor to a chain ending at `c`. -/
theorem chain_snoc {R : GraphNode → GraphNode → Prop} :
    ∀ (s : GraphNode) (rest : List GraphNode) (c n : GraphNode),
    List.Chain R s rest → (s :: rest).getLast? = some c → R c n →
    List.Chain R s (rest ++ [n])
  | s, [], c, n, _, hlast, hr => by
    simp only [List.getLast?_singleton, Option.some.injEq] at hlast
    subst hlast
    simpa using List.Chain.cons hr List.Chain.nil
  | s, r :: rest', c, n, hchain, hlast, hr => by
    rw [List.chain_cons] at hchain
    obtain ⟨hsr, hchain'⟩ := hchain
    rw [List.getLast?_cons_cons] at hlast
    exact List.Chain.cons hsr (chain_snoc r rest' c n hchain' hlast hr)

/-- Every node produced by `get_neighbors` is a stored node value. -/
theorem get_neighbors_mem_values {g : RecipeGraph} {u : String}
    {t : Option EdgeType} {n : GraphNode} (h : n ∈ get_neighbors g u t) :
    ∃ p ∈ g.nodes, p.2 = n := by
  unfold get_neighbors at h
  rcases List.mem_append.mp h with hout | hin
  · obtain ⟨p, _, hp⟩ := List.mem_filterMap.mp hout
    by_cases htf : typeFilter t p.2 = true
    · rw [if_pos htf] at hp
      obtain ⟨q, hq, _, hqv⟩ := dGet_mem hp
      exact ⟨q, hq, hqv⟩
    · rw [if_neg htf] at hp
      exact absurd hp (by simp)
  · obtain ⟨q, _, hq⟩ := List.mem_filterMap.mp hin
    cases hd : dGet q.2 u with
    | none => rw [hd] at hq; exact absurd hq (by simp)
    | some es =>
      rw [hd] at hq
      change (if typeFilter t es = true then get_node g q.1 else none) = some n at hq
      by_cases htf : typeFilter t es = true
      · rw [if_pos htf] at hq
        obtain ⟨q', hq', _, hqv⟩ := dGet_mem hq
        exact ⟨q', hq', hqv⟩
      · rw [if_neg htf] at hq
        exact absurd hq (by simp)

theorem enq_visited_sub (path : List GraphNode) :
    ∀ (ns : List GraphNode) (v : List String) (x : String),
    x ∈ v → x ∈ (enqueueAll path ns v).2
  | [], v, x, h => h
  | n :: ns, v, x, h => by
    unfold enqueueAll
    by_cases hc : v.contains n.id = true
    · rw [if_pos hc]
      exact enq_visited_sub path ns v x h
    · rw [if_neg hc]
      exact enq_visited_sub path ns (v ++ [n.id]) x (by simp [h])

theorem enq_visited_covers (path : List GraphNode) :
    ∀ (ns : List GraphNode) (v : List String) (n : GraphNode),
    n ∈ ns → n.id ∈ (enqueueAll path ns v).2
  | [], v, n, h => absurd h (by simp)
  | m :: ns, v, n, h => by
    unfold enqueueAll
    rcases List.mem_cons.mp h with rfl | hr
    · by_cases hc : v.contains n.id = true
      · rw [if_pos hc]
        exact enq_visited_sub path ns v n.id (List.mem_of_elem_eq_true hc)
      · rw [if_neg hc]
        exact enq_visited_sub path ns (v ++ [n.id]) n.id (by simp)
    · by_cases hc : v.contains m.id = true
      · rw [if_pos hc]
        exact enq_visited_covers path ns v n hr
      · rw [if_neg hc]
        exact enq_visited_covers path ns (v ++ [m.id]) n hr

theorem enq_visited_new (path : List GraphNode) :
    ∀ (ns : List GraphNode) (v : List String) (x : String),
    x ∈ (enqueueAll path ns v).2 → x ∈ v ∨ ∃ n ∈ ns, n.id = x
  | [], v, x, h => Or.inl h
  | n :: ns, v, x, h => by
    unfold enqueueAll at h
    by_cases hc : v.contains n.id = true
    · rw [if_pos hc] at h
      rcases enq_visited_new path ns v x h with h1 | ⟨m, hm, hmx⟩
      · exact Or.inl h1
      · exact Or.inr ⟨m, by simp [hm], hmx⟩
    · rw [if_neg hc] at h
      rcases enq_visited_new path ns (v ++ [n.id]) x h with h1 | ⟨m, hm, hmx⟩
      · rcases List.mem_append.mp h1 with h2 | h3
        · exact Or.inl h2
        · simp only [List.mem_singleton] at h3
          exact Or.inr ⟨n, by simp, h3.symm⟩
      · exact Or.inr ⟨m, by simp [hm], hmx⟩

theorem enq_nodup (path : List GraphNode) :
    ∀ (ns : List GraphNode) (v : List String),
    v.Nodup → (enqueueAll path ns v).2.Nodup
  | [], v, h => h
  | n :: ns, v, h => by
    unfold enqueueAll
    by_cases hc : v.contains n.id = true
    · rw [if_pos hc]
      exact enq_nodup path ns v h
    · rw [if_neg hc]
      refine enq_nodup path ns (v ++ [n.id]) ?_
      have hnv : n.id ∉ v := fun hm => hc (List.elem_eq_true_of_mem hm)
      rw [List.nodup_append]
      exact ⟨h, by simp, by simpa using hnv⟩

theorem enq_len (path : List GraphNode) :
    ∀ (ns : List GraphNode) (v : List String),
    (enqueueAll path ns v).2.length = v.length + (enqueueAll path ns v).1.length
  | [], v => by simp [enqueueAll]
  | n :: ns, v => by
    unfold enqueueAll
    by_cases hc : v.contains n.id = true
    · rw [if_pos hc]
      exact enq_len path ns v
    · rw [if_neg hc]
      simp only [List.length_cons]
      have := enq_len path ns (v ++ [n.id])
      simp only [List.length_append, List.length_singleton] at this
      omega

theorem enq_entries (path : List GraphNode) :
    ∀ (ns : List GraphNode) (v : List String) (e : GraphNode × List GraphNode),
    e ∈ (enqueueAll path ns v).1 →
    ∃ n ∈ ns, e = (n, path ++ [n]) ∧ n.id ∉ v
  | [], v, e, h => absurd h (by simp [enqueueAll])
  | n :: ns, v, e, h => by
    unfold enqueueAll at h
    by_cases hc : v.contains n.id = true
    · rw [if_pos hc] at h
      obtain ⟨m, hm, he, hmv⟩ := enq_entries path ns v e h
      exact ⟨m, by simp [hm], he, hmv⟩
    · rw [if_neg hc] at h
      have hnv : n.id ∉ v := fun hm => hc (List.elem_eq_true_of_mem hm)
      rcases List.mem_cons.mp h with rfl | hr
      · exact ⟨n, by simp, rfl, hnv⟩
      · obtain ⟨m, hm, he, hmv⟩ := enq_entries path ns (v ++ [n.id]) e hr
        refine ⟨m, by simp [hm], he, ?_⟩
        intro hmem
        exact hmv (by simp [hmem])

/-- Core closure argument: any id reachable strictly below the current
BFS frontier is already visited and fully explored. -/
theorem closed_reach (g : RecipeGraph) (start : GraphNode) (endId : String)
    (maxDepth : Nat) (visited : List String)
    (Q : List (GraphNode × List GraphNode)) (L : Nat)
    (hstart : start.id ∈ visited)
    (hclosed : ∀ x ∈ visited, (∃ e ∈ Q, e.1.id = x) ∨
      (∀ n ∈ get_neighbors g x none, n.id ≠ endId ∧ n.id ∈ visited) ∨
      ¬ ReachIn g start.id (maxDepth - 1) x)
    (hmin : ∀ e ∈ Q, ∀ j, ReachIn g start.id j e.1.id → e.2.length ≤ j + 1)
    (hQall : ∀ e ∈ Q, L ≤ e.2.length) :
    ∀ j, j + 2 ≤ L → j + 1 ≤ maxDepth → ∀ x, ReachIn g start.id j x →
      x ∈ visited ∧ ∀ n ∈ get_neighbors g x none, n.id ≠ endId ∧ n.id ∈ visited := by
  intro j
  induction j using Nat.strong_induction_on with
  | _ j ih =>
    intro hjL hjd x hreach
    have hxv : x ∈ visited := by
      rcases reach_last hreach with rfl | ⟨w, k, hk1, hrw, n, hn, hid⟩
      · exact hstart
      · have hw := ih k (by omega) (by omega) (by omega) w hrw
        have hnid := (hw.2 n hn).2
        rw [hid] at hnid
        exact hnid
    refine ⟨hxv, ?_⟩
    rcases hclosed x hxv with ⟨e, he, hex⟩ | hexp | hfar
    · have hle := hmin e he j (hex ▸ hreach)
      have hLe := hQall e he
      omega
    · exact hexp
    · exact absurd (hreach.mono_le (by omega)) hfar

/-- Anything reachable strictly below the frontier length is visited. -/
theorem frontier_reach (g : RecipeGraph) (start : GraphNode) (endId : String)
    (maxDepth : Nat) (visited : List String)
    (Q : List (GraphNode × List GraphNode)) (L : Nat)
    (hstart : start.id ∈ visited)
    (hclosed : ∀ x ∈ visited, (∃ e ∈ Q, e.1.id = x) ∨
      (∀ n ∈ get_neighbors g x none, n.id ≠ endId ∧ n.id ∈ visited) ∨
      ¬ ReachIn g start.id (maxDepth - 1) x)
    (hmin : ∀ e ∈ Q, ∀ j, ReachIn g start.id j e.1.id → e.2.length ≤ j + 1)
    (hQall : ∀ e ∈ Q, L ≤ e.2.length)
    (hLd : L ≤ maxDepth) :
    ∀ j x, j + 1 ≤ L → ReachIn g start.id j x → x ∈ visited := by
  intro j x hjL hreach
  rcases reach_last hreach with rfl | ⟨w, k, hk1, hrw, n, hn, hid⟩
  · exact hstart
  · have hw := closed_reach g start endId maxDepth visited Q L hstart hclosed hmin hQall
      k (by omega) (by omega) w hrw
    have hnid := (hw.2 n hn).2
    rw [hid] at hnid
    exact hnid

/-- With an empty queue, the invariant forces the end id to be
unreachable within `maxDepth` hops. -/
theorem empty_queue_unreachable (g : RecipeGraph) (start : GraphNode)
    (endId : String) (maxDepth : Nat) (visited : List String)
    (hne : start.id ≠ endId)
    (hstart : start.id ∈ visited)
    (hclosed : ∀ x ∈ visited,
      (∀ n ∈ get_neighbors g x none, n.id ≠ endId ∧ n.id ∈ visited) ∨
      ¬ ReachIn g start.id (maxDepth - 1) x) :
    ¬ ReachIn g start.id maxDepth endId := by
  intro hreach
  rcases reach_last hreach with heq | ⟨w, k, hk1, hrw, n, hn, hid⟩
  · exact hne heq
  · have hclosed' : ∀ x ∈ visited,
        (∃ e ∈ ([] : List (GraphNode × List GraphNode)), e.1.id = x) ∨
        (∀ n ∈ get_neighbors g x none, n.id ≠ endId ∧ n.id ∈ visited) ∨
        ¬ ReachIn g start.id (maxDepth - 1) x := by
      intro x hx
      rcases hclosed x hx with h1 | h2
      · exact Or.inr (Or.inl h1)
      · exact Or.inr (Or.inr h2)
    have hw := closed_reach g start endId maxDepth visited [] (k + 2) hstart hclosed'
      (by simp) (by simp) k (by omega) (by omega) w hrw
    exact (hw.2 n hn).1 hid

theorem enq_new_covered (path : List GraphNode) :
    ∀ (ns : List GraphNode) (v : List String) (x : String),
    x ∈ (enqueueAll path ns v).2 → x ∉ v →
    ∃ e ∈ (enqueueAll path ns v).1, e.1.id = x
  | [], v, x, h, hnv => absurd h hnv
  | n :: ns, v, x, h, hnv => by
    unfold enqueueAll at h ⊢
    by_cases hc : v.contains n.id = true
    · rw [if_pos hc] at h ⊢
      exact enq_new_covered path ns v x h hnv
    · rw [if_neg hc] at h ⊢
      by_cases hx : x ∈ v ++ [n.id]
      · rcases List.mem_append.mp hx with h1 | h2
        · exact absurd h1 hnv
        · simp only [List.mem_singleton] at h2
          exact ⟨(n, path ++ [n]), by simp, h2.symm⟩
      · obtain ⟨e, he, hex⟩ := enq_new_covered path ns (v ++ [n.id]) x h hx
        exact ⟨e, by simp [he], hex⟩

/-- Light BFS loop lemma: any returned path is a walk from `start` to the
end id, has duplicate-free node ids, and has at most `maxDepth` hops. -/

theorem bfsLoop_light (g : RecipeGraph) (start : GraphNode) (endId : String)
    (maxDepth : Nat) :
    ∀ (fuel : Nat) (Q : List (GraphNode × List GraphNode)) (visited : List String),
    (∀ e ∈ Q, EntryCore g start visited e) →
    endId ∉ visited →
    ∀ p, bfsLoop g endId maxDepth fuel Q visited = some p →
    (∃ rest, p = start :: rest ∧ List.Chain (nbrRel g) start rest) ∧
    p.getLast?.map (fun n => n.id) = some endId ∧
    (p.map (fun n => n.id)).Nodup ∧
    p.length ≤ maxDepth + 1 := by
  intro fuel
  induction fuel with
  | zero =>
    intro Q visited _ _ p hp
    exact absurd hp (by simp [bfsLoop])
  | succ fuel ih =>
    intro Q visited hQ hend p hp
    match Q with
    | [] => exact absurd hp (by simp [bfsLoop])
    | (c, path) :: rest =>
      rw [bfsLoop] at hp
      by_cases hL : maxDepth < path.length
      · rw [if_pos hL] at hp
        exact ih rest visited (fun e he => hQ e (by simp [he])) hend p hp
      · rw [if_neg hL] at hp
        obtain ⟨⟨rest₀, hpath0, hchain⟩, hlast0, hnodup0, hids0⟩ := hQ (c, path) (by simp)
        have hpath : path = start :: rest₀ := hpath0
        have hlast : path.getLast? = some c := hlast0
        have hnodup : (path.map (fun n => n.id)).Nodup := hnodup0
        have hids : ∀ x ∈ path.map (fun n => n.id), x ∈ visited := hids0
        cases hfind : (get_neighbors g c.id none).find? (fun n => n.id == endId) with
        | some n =>
          rw [hfind] at hp
          simp only [Option.some.injEq] at hp
          subst hp
          have hnmem : n ∈ get_neighbors g c.id none := List.mem_of_find?_eq_some hfind
          have hnid : n.id = endId := by
            have hb := List.find?_some hfind
            simpa using hb
          have hnin : n.id ∉ path.map (fun m => m.id) := by
            rw [hnid]
            intro hmem
            exact hend (hids endId hmem)
          refine ⟨⟨rest₀ ++ [n], by rw [hpath]; simp, ?_⟩, ?_, ?_, ?_⟩
          · refine chain_snoc start rest₀ c n hchain ?_ hnmem
            rw [← hpath]
            exact hlast
          · rw [List.getLast?_concat]
            simp [hnid]
          · rw [List.map_append]
            simp only [List.map_cons, List.map_nil]
            rw [List.nodup_append]
            exact ⟨hnodup, by simp, by simpa using hnin⟩
          · simp only [List.length_append, List.length_singleton]
            omega
        | none =>
          rw [hfind] at hp
          have hnotend : ∀ n' ∈ get_neighbors g c.id none, n'.id ≠ endId := by
            intro n' hn'
            have := List.find?_eq_none.mp hfind n' hn'
            simpa using this
          refine ih _ _ ?_ ?_ p hp
          · intro e he
            rcases List.mem_append.mp he with hrest | hnew
            · obtain ⟨hw, hl, hnd, hin⟩ := hQ e (by simp [hrest])
              exact ⟨hw, hl, hnd, fun x hx =>
                enq_visited_sub path _ visited x (hin x hx)⟩
            · obtain ⟨n, hn, rfl, hnv⟩ := enq_entries path _ visited e hnew
              refine ⟨⟨rest₀ ++ [n], by rw [hpath]; simp, ?_⟩, ?_, ?_, ?_⟩
              · refine chain_snoc start rest₀ c n hchain ?_ hn
                rw [← hpath]
                exact hlast
              · rw [List.getLast?_concat]
              · rw [List.map_append]
                simp only [List.map_cons, List.map_nil]
                rw [List.nodup_append]
                refine ⟨hnodup, by simp, by simpa using fun hmem => hnv (hids n.id hmem)⟩
              · intro x hx
                rw [List.map_append] at hx
                rcases List.mem_append.mp hx with h1 | h2
                · exact enq_visited_sub path _ visited x (hids x h1)
                · simp only [List.map_cons, List.map_nil, List.mem_singleton] at h2
                  subst h2
                  exact enq_visited_covers path _ visited n hn
          · intro hmem
            rcases enq_visited_new path _ visited endId hmem with h1 | ⟨n', hn', hid⟩
            · exact hend h1
            · exact hnotend n' hn' hid

theorem inv_empty_unreachable (g : RecipeGraph) (start : GraphNode)
    (endId : String) (maxDepth : Nat) (visited : List String)
    (hne : start.id ≠ endId)
    (hinv : BfsInv g start endId maxDepth [] visited) :
    ¬ ReachIn g start.id maxDepth endId := by
  refine empty_queue_unreachable g start endId maxDepth visited hne hinv.start_mem ?_
  intro x hx
  rcases hinv.closed x hx with ⟨e, he, _⟩ | h2 | h3
  · exact absurd he (by simp)
  · exact Or.inl h2
  · exact Or.inr h3

/-- Main BFS loop lemma: under the invariant and with enough fuel, a
returned path satisfies `BfsFound` (in particular it is shortest), and a
`none` result means the end id is unreachable within `maxDepth` hops. -/
theorem bfsLoop_main (g : RecipeGraph) (start : GraphNode) (endId : String)
    (maxDepth : Nat) (hmd : 1 ≤ maxDepth) (hne : start.id ≠ endId) :
    ∀ (fuel : Nat) (Q : List (GraphNode × List GraphNode)) (visited : List String),
    BfsInv g start endId maxDepth Q visited →
    Q.length + (g.nodes.length + 1 - visited.length) ≤ fuel →
    (∀ p, bfsLoop g endId maxDepth fuel Q visited = some p →
        BfsFound g start endId maxDepth p) ∧
    (bfsLoop g endId maxDepth fuel Q visited = none →
        ¬ ReachIn g start.id maxDepth endId) := by
  intro fuel
  induction fuel with
  | zero =>
    intro Q visited hinv hfuel
    have hQnil : Q = [] := List.length_eq_zero.mp (by omega)
    subst hQnil
    exact ⟨fun p hp => absurd hp (by simp [bfsLoop]),
      fun _ => inv_empty_unreachable g start endId maxDepth visited hne hinv⟩
  | succ fuel ih =>
    intro Q visited hinv hfuel
    match Q with
    | [] =>
      exact ⟨fun p hp => absurd hp (by simp [bfsLoop]),
        fun _ => inv_empty_unreachable g start endId maxDepth visited hne hinv⟩
    | (c, path) :: rest =>
      obtain ⟨hentries, hminim, hmono, hstart, hend, hvnodup, hvsub, hclosed⟩ := hinv
      obtain ⟨⟨rest₀, hpath0, hchain⟩, hlast0, hnodup0, hids0⟩ :=
        hentries (c, path) (by simp)
      have hpath : path = start :: rest₀ := hpath0
      have hlast : path.getLast? = some c := hlast0
      have hnodup : (path.map (fun n => n.id)).Nodup := hnodup0
      have hids : ∀ x ∈ path.map (fun n => n.id), x ∈ visited := hids0
      have hminhead : ∀ j, ReachIn g start.id j c.id → path.length ≤ j + 1 :=
        fun j hj => hminim (c, path) (by simp) j hj
      have hrestBound : ∀ e ∈ rest,
          path.length ≤ e.2.length ∧ e.2.length ≤ path.length + 1 :=
        (List.pairwise_cons.mp hmono).1
      have hQall : ∀ e ∈ (c, path) :: rest, path.length ≤ e.2.length := by
        intro e he
        rcases List.mem_cons.mp he with rfl | hr
        · exact le_refl _
        · exact (hrestBound e hr).1
      simp only [List.length_cons] at hfuel
      by_cases hL : maxDepth < path.length
      · -- too deep: the head is skipped without expansion
        have hinv' : BfsInv g start endId maxDepth rest visited := by
          refine ⟨fun e he => hentries e (by simp [he]),
            fun e he => hminim e (by simp [he]),
            (List.pairwise_cons.mp hmono).2, hstart, hend, hvnodup, hvsub, ?_⟩
          intro x hx
          rcases hclosed x hx with ⟨e, he, hex⟩ | h2 | h3
          · rcases List.mem_cons.mp he with rfl | hr
            · refine Or.inr (Or.inr ?_)
              intro hr2
              have hcx : ReachIn g start.id (maxDepth - 1) c.id := by
                rw [show c.id = x from hex]
                exact hr2
              have := hminhead (maxDepth - 1) hcx
              omega
            · exact Or.inl ⟨e, hr, hex⟩
          · exact Or.inr (Or.inl h2)
          · exact Or.inr (Or.inr h3)
        have hres := ih rest visited hinv' (by omega)
        constructor
        · intro p hp
          rw [bfsLoop, if_pos hL] at hp
          exact hres.1 p hp
        · intro hp
          rw [bfsLoop, if_pos hL] at hp
          exact hres.2 hp
      · -- expand the head
        have hLle : path.length ≤ maxDepth := by omega
        have hfrontier : ∀ j x, j + 1 ≤ path.length →
            ReachIn g start.id j x → x ∈ visited :=
          frontier_reach g start endId maxDepth visited ((c, path) :: rest)
            path.length hstart hclosed hminim hQall hLle
        cases hfind : (get_neighbors g c.id none).find? (fun n => n.id == endId) with
        | some n =>
          have hnmem : n ∈ get_neighbors g c.id none := List.mem_of_find?_eq_some hfind
          have hnid : n.id = endId := by
            have hb := List.find?_some hfind
            simpa using hb
          have hnin : n.id ∉ path.map (fun m => m.id) := by
            rw [hnid]
            intro hmem
            exact hend (hids endId hmem)
          constructor
          · intro p hp
            rw [bfsLoop, if_neg hL, hfind] at hp
            have hp' : some (path ++ [n]) = some p := hp
            simp only [Option.some.injEq] at hp'
            subst hp'
            refine ⟨⟨rest₀ ++ [n], by rw [hpath]; simp, ?_⟩, ?_, ?_, ?_, ?_⟩
            · refine chain_snoc start rest₀ c n hchain ?_ hnmem
              rw [← hpath]
              exact hlast
            · rw [List.getLast?_concat]
              simp [hnid]
            · rw [List.map_append]
              simp only [List.map_cons, List.map_nil]
              rw [List.nodup_append]
              exact ⟨hnodup, by simp, by simpa using hnin⟩
            · simp only [List.length_append, List.length_singleton]
              omega
            · intro j hreach
              simp only [List.length_append, List.length_singleton]
              by_contra hcon
              have hjL : j + 1 ≤ path.length := by omega
              exact hend (hfrontier j endId hjL hreach)
          · intro hp
            rw [bfsLoop, if_neg hL, hfind] at hp
            exact absurd hp (by simp)
        | none =>
          have hnotend : ∀ n' ∈ get_neighbors g c.id none, n'.id ≠ endId := by
            intro n' hn'
            have := List.find?_eq_none.mp hfind n' hn'
            simpa using this
          have hvsub' : ∀ x ∈ (enqueueAll path (get_neighbors g c.id none) visited).2,
              x ∈ start.id :: g.nodes.map (fun p => p.2.id) := by
            intro x hx
            rcases enq_visited_new path _ visited x hx with h1 | ⟨n', hn', hid⟩
            · exact hvsub x h1
            · obtain ⟨q, hq, hqv⟩ := get_neighbors_mem_values hn'
              refine List.mem_cons.mpr (Or.inr ?_)
              refine List.mem_map.mpr ⟨q, hq, ?_⟩
              rw [hqv, hid]
          have hnewlen : ∀ e ∈ (enqueueAll path (get_neighbors g c.id none) visited).1,
              e.2.length = path.length + 1 := by
            intro e he
            obtain ⟨n', _, rfl, _⟩ := enq_entries path _ visited e he
            simp
          have hinv' : BfsInv g start endId maxDepth
              (rest ++ (enqueueAll path (get_neighbors g c.id none) visited).1)
              (enqueueAll path (get_neighbors g c.id none) visited).2 := by
            refine ⟨?_, ?_, ?_, ?_, ?_, ?_, hvsub', ?_⟩
            · -- entry core facts
              intro e he
              rcases List.mem_append.mp he with hrest | hnew
              · obtain ⟨hw, hl, hnd, hin⟩ := hentries e (by simp [hrest])
                exact ⟨hw, hl, hnd, fun x hx =>
                  enq_visited_sub path _ visited x (hin x hx)⟩
              · obtain ⟨n', hn', rfl, hnv⟩ := enq_entries path _ visited e hnew
                refine ⟨⟨rest₀ ++ [n'], by rw [hpath]; simp, ?_⟩, ?_, ?_, ?_⟩
                · refine chain_snoc start rest₀ c n' hchain ?_ hn'
                  rw [← hpath]
                  exact hlast
                · rw [List.getLast?_concat]
                · rw [List.map_append]
                  simp only [List.map_cons, List.map_nil]
                  rw [List.nodup_append]
                  exact ⟨hnodup, by simp,
                    by simpa using fun hmem => hnv (hids n'.id hmem)⟩
                · intro x hx
                  rw [List.map_append] at hx
                  rcases List.mem_append.mp hx with h1 | h2
                  · exact enq_visited_sub path _ visited x (hids x h1)
                  · simp only [List.map_cons, List.map_nil, List.mem_singleton] at h2
                    subst h2
                    exact enq_visited_covers path _ visited n' hn'
            · -- stored paths remain shortest
              intro e he
              rcases List.mem_append.mp he with hrest | hnew
              · exact hminim e (by simp [hrest])
              · obtain ⟨n', hn', rfl, hnv⟩ := enq_entries path _ visited e hnew
                intro j hreach
                simp only [List.length_append, List.length_singleton]
                by_contra hcon
                have hjL : j + 1 ≤ path.length := by omega
                exact hnv (hfrontier j n'.id hjL hreach)
            · -- two-level monotonicity
              rw [List.pairwise_append]
              refine ⟨(List.pairwise_cons.mp hmono).2, ?_, ?_⟩
              · refine List.pairwise_of_forall_mem_list ?_
                intro a ha b hb
                rw [hnewlen a ha, hnewlen b hb]
                omega
              · intro a ha b hb
                have h1 := hrestBound a ha
                rw [hnewlen b hb]
                omega
            · exact enq_visited_sub path _ visited start.id hstart
            · intro hmem
              rcases enq_visited_new path _ visited endId hmem with h1 | ⟨n', hn', hid⟩
              · exact hend h1
              · exact hnotend n' hn' hid
            · exact enq_nodup path _ visited hvnodup
            · -- closure
              intro x hx
              by_cases hxv : x ∈ visited
              · rcases hclosed x hxv with ⟨e, he, hex⟩ | h2 | h3
                · rcases List.mem_cons.mp he with rfl | hr
                  · refine Or.inr (Or.inl ?_)
                    have hxc : x = c.id := hex.symm
                    subst hxc
                    intro n' hn'
                    exact ⟨hnotend n' hn', enq_visited_covers path _ visited n' hn'⟩
                  · exact Or.inl ⟨e, by simp [hr], hex⟩
                · refine Or.inr (Or.inl ?_)
                  intro n' hn'
                  obtain ⟨hne', hmem'⟩ := h2 n' hn'
                  exact ⟨hne', enq_visited_sub path _ visited n'.id hmem'⟩
                · exact Or.inr (Or.inr h3)
              · obtain ⟨e, he, hex⟩ := enq_new_covered path _ visited x hx hxv
                exact Or.inl ⟨e, by simp [he], hex⟩
          have hlenV : (enqueueAll path (get_neighbors g c.id none) visited).2.length ≤
              g.nodes.length + 1 := by
            have hsp := List.Nodup.subperm (enq_nodup path _ visited hvnodup)
              (fun x hx => hvsub' x hx)
            have := hsp.length_le
            simpa using this
          have hres := ih _ _ hinv' (by
            have he1 := enq_len path (get_neighbors g c.id none) visited
            simp only [List.length_append]
            omega)
          constructor
          · intro p hp
            rw [bfsLoop, if_neg hL, hfind] at hp
            exact hres.1 p hp
          · intro hp
            rw [bfsLoop, if_neg hL, hfind] at hp
            exact hres.2 hp

/-- The invariant holds at the BFS starting state. -/
theorem bfs_initial_inv (g : RecipeGraph) (start : GraphNode) (endId : String)
    (maxDepth : Nat) (hne : start.id ≠ endId) :
    BfsInv g start endId maxDepth [(start, [start])] [start.id] := by
  refine ⟨?_, ?_, ?_, ?_, ?_, ?_, ?_, ?_⟩
  · intro e he
    simp only [List.mem_singleton] at he
    subst he
    exact ⟨⟨[], rfl, List.Chain.nil⟩, rfl, by simp, by simp⟩
  · intro e he
    simp only [List.mem_singleton] at he
    subst he
    intro j _
    simp
  · simp
  · simp
  · simpa using fun h => hne h.symm
  · simp
  · intro x hx
    simp only [List.mem_singleton] at hx
    simp [hx]
  · intro x hx
    simp only [List.mem_singleton] at hx
    subst hx
    exact Or.inl ⟨(start, [start]), by simp, rfl⟩

/-- The light entry invariant also holds at the starting state. -/
theorem bfs_initial_core (g : RecipeGraph) (start : GraphNode) :
    ∀ e ∈ [(start, [start])], EntryCore g start [start.id] e := by
  intro e he
  simp only [List.mem_singleton] at he
  subst he
  exact ⟨⟨[], rfl, List.Chain.nil⟩, rfl, by simp, by simp⟩

/-- Full specification of `_find_shortest_path`. -/
theorem find_shortest_path_spec (g : RecipeGraph) (s e : GraphNode) (d : Nat)
    (hd : 1 ≤ d) :
    (s.id = e.id → _find_shortest_path g s e d = some [s]) ∧
    (∀ p, _find_shortest_path g s e d = some p → BfsFound g s e.id d p) ∧
    (_find_shortest_path g s e d = none → ¬ ReachIn g s.id d e.id) := by
  by_cases heq : s.id = e.id
  · refine ⟨fun _ => by simp [_find_shortest_path, heq], ?_, ?_⟩
    · intro p hp
      rw [_find_shortest_path, if_pos heq] at hp
      simp only [Option.some.injEq] at hp
      subst hp
      refine ⟨⟨[], rfl, List.Chain.nil⟩, by simp [heq], by simp, by simp, ?_⟩
      intro j _
      simp
    · intro hp
      rw [_find_shortest_path, if_pos heq] at hp
      exact absurd hp (by simp)
  · have hmain := bfsLoop_main g s e.id d hd heq (g.nodes.length + 1)
      [(s, [s])] [s.id] (bfs_initial_inv g s e.id d heq) (by simp; omega)
    refine ⟨fun h => absurd h heq, ?_, ?_⟩
    · intro p hp
      rw [_find_shortest_path, if_neg heq] at hp
      exact hmain.1 p hp
    · intro hp
      rw [_find_shortest_path, if_neg heq] at hp
      exact hmain.2 hp

/-- Any returned path of `_find_shortest_path` has duplicate-free ids. -/
theorem find_shortest_path_nodup (g : RecipeGraph) (s e : GraphNode) (d : Nat)
    (p : List GraphNode) (hp : _find_shortest_path g s e d = some p) :
    (p.map (fun n => n.id)).Nodup := by
  by_cases heq : s.id = e.id
  · rw [_find_shortest_path, if_pos heq] at hp
    simp only [Option.some.injEq] at hp
    subst hp
    simp
  · rw [_find_shortest_path, if_neg heq] at hp
    have hl := bfsLoop_light g s e.id d (g.nodes.length + 1) [(s, [s])] [s.id]
      (bfs_initial_core g s) (by simpa using fun h => heq h.symm) p hp
    exact hl.2.2.1

/-- Membership in the inner per-end fold of `find_path_between_ingredients`. -/
theorem inner_fold_mem (g : RecipeGraph) (d : Nat) (s : GraphNode) :
    ∀ (nodes2 : List GraphNode) (acc : List (List GraphNode)) (p : List GraphNode),
    p ∈ nodes2.foldl (fun paths e =>
      match _find_shortest_path g s e d with
      | some q => if q.isEmpty then paths else paths ++ [q]
      | none => paths) acc →
    p ∈ acc ∨ ∃ e ∈ nodes2, _find_shortest_path g s e d = some p
  | [], acc, p, h => Or.inl h
  | e2 :: rest, acc, p, h => by
    rw [List.foldl_cons] at h
    have step : ∀ (acc' : List (List GraphNode)),
        (match _find_shortest_path g s e2 d with
         | some q => if q.isEmpty then acc' else acc' ++ [q]
         | none => acc') = acc' ∨
        (∃ q, _find_shortest_path g s e2 d = some q ∧
          (match _find_shortest_path g s e2 d with
           | some q' => if q'.isEmpty then acc' else acc' ++ [q']
           | none => acc') = acc' ++ [q]) := by
      intro acc'
      cases hsp : _find_shortest_path g s e2 d with
      | none => exact Or.inl rfl
      | some q =>
        by_cases hq : q.isEmpty
        · exact Or.inl (by simp [hq])
        · exact Or.inr ⟨q, rfl, by simp [hq]⟩
    rcases step acc with hsame | ⟨q, hqsp, hqacc⟩
    · rw [hsame] at h
      rcases inner_fold_mem g d s rest acc p h with h1 | ⟨e', he', hsp'⟩
      · exact Or.inl h1
      · exact Or.inr ⟨e', by simp [he'], hsp'⟩
    · rw [hqacc] at h
      rcases inner_fold_mem g d s rest (acc ++ [q]) p h with h1 | ⟨e', he', hsp'⟩
      · rcases List.mem_append.mp h1 with h2 | h3
        · exact Or.inl h2
        · simp only [List.mem_singleton] at h3
          subst h3
          exact Or.inr ⟨e2, by simp, hqsp⟩
      · exact Or.inr ⟨e', by simp [he'], hsp'⟩

/-- Membership in the output of `find_path_between_ingredients` comes from
some resolved (start, end) pair whose BFS succeeded. -/
theorem find_path_mem (g : RecipeGraph) (st : GraphStorage) (q1 q2 : String)
    (d : Nat) (p : List GraphNode)
    (hp : p ∈ find_path_between_ingredients g st q1 q2 d) :
    ∃ s ∈ search_nodes g st q1 (some NodeType.ingredient) 10,
    ∃ e ∈ search_nodes g st q2 (some NodeType.ingredient) 10,
      _find_shortest_path g s e d = some p := by
  unfold find_path_between_ingredients at hp
  by_cases hg : ((search_nodes g st q1 (some NodeType.ingredient) 10).isEmpty ||
      (search_nodes g st q2 (some NodeType.ingredient) 10).isEmpty) = true
  · rw [if_pos hg] at hp
    exact absurd hp (by simp)
  · rw [if_neg hg] at hp
    suffices hgen : ∀ (nodes1 : List GraphNode) (acc : List (List GraphNode)),
        p ∈ nodes1.foldl (fun paths s =>
          (search_nodes g st q2 (some NodeType.ingredient) 10).foldl (fun paths e =>
            match _find_shortest_path g s e d with
            | some q => if q.isEmpty then paths else paths ++ [q]
            | none => paths) paths) acc →
        p ∈ acc ∨ ∃ s ∈ nodes1,
          ∃ e ∈ search_nodes g st q2 (some NodeType.ingredient) 10,
            _find_shortest_path g s e d = some p by
      rcases hgen (search_nodes g st q1 (some NodeType.ingredient) 10) [] hp with h1 | h2
      · exact absurd h1 (by simp)
      · exact h2
    intro nodes1
    induction nodes1 with
    | nil => intro acc h; exact Or.inl h
    | cons s1 rest ih =>
      intro acc h
      rw [List.foldl_cons] at h
      rcases ih _ h with h1 | ⟨s', hs', e', he', hsp'⟩
      · rcases inner_fold_mem g d s1 _ acc p h1 with h2 | ⟨e', he', hsp'⟩
        · exact Or.inl h2
        · exact Or.inr ⟨s1, by simp, e', he', hsp'⟩
      · exact Or.inr ⟨s', by simp [hs'], e', he', hsp'⟩

/-- C7: for every resolved pair, the BFS path is a genuine walk over the
undirected neighbor relation from the start node to the end id, has at
most `maxDepth` hops, and no strictly shorter walk exists; a same-id pair
yields the single-node path; an unreachable-within-depth pair contributes
no entry (its BFS returns `none` exactly when no walk of at most
`maxDepth` hops exists); and every output entry arises from such a pair. -/
theorem c7_shortest_path_bfs (g : RecipeGraph) (st : GraphStorage)
    (q1 q2 : String) (d : Nat) (hd : 1 ≤ d) :
    (∀ s e : GraphNode, s.id = e.id → _find_shortest_path g s e d = some [s]) ∧
    (∀ (s e : GraphNode) (p : List GraphNode),
      _find_shortest_path g s e d = some p →
      (∃ rest, p = s :: rest ∧ List.Chain (nbrRel g) s rest) ∧
      p.getLast?.map (fun n => n.id) = some e.id ∧
      p.length ≤ d + 1 ∧
      (∀ ns, IsWalkFrom g s.id ns e.id → p.length ≤ ns.length + 1)) ∧
    (∀ s e : GraphNode, _find_shortest_path g s e d = none →
      ¬ ∃ ns, IsWalkFrom g s.id ns e.id ∧ ns.length ≤ d) ∧
    (∀ p ∈ find_path_between_ingredients g st q1 q2 d,
      ∃ s ∈ search_nodes g st q1 (some NodeType.ingredient) 10,
      ∃ e ∈ search_nodes g st q2 (some NodeType.ingredient) 10,
        _find_shortest_path g s e d = some p) := by
  refine ⟨?_, ?_, ?_, fun p hp => find_path_mem g st q1 q2 d p hp⟩
  · intro s e heq
    exact (find_shortest_path_spec g s e d hd).1 heq
  · intro s e p hp
    obtain ⟨hw, hlast, _, hlen, hmin⟩ := (find_shortest_path_spec g s e d hd).2.1 p hp
    refine ⟨hw, hlast, hlen, ?_⟩
    intro ns hns
    exact hmin ns.length (reachIn_iff_exists_walk.mpr ⟨ns, hns, le_refl _⟩)
  · intro s e hp
    rintro ⟨ns, hns, hlen⟩
    exact (find_shortest_path_spec g s e d hd).2.2 hp
      ((reachIn_iff_exists_walk.mpr ⟨ns, hns, le_refl _⟩).mono_le hlen)

/-- C10: every path produced by the BFS — hence every entry of
`find_path_between_ingredients` — has pairwise-distinct node ids. -/
theorem c10_paths_simple (g : RecipeGraph) (st : GraphStorage)
    (q1 q2 : String) (d : Nat) :
    (∀ (s e : GraphNode) (p : List GraphNode),
      _find_shortest_path g s e d = some p → (p.map (fun n => n.id)).Nodup) ∧
    (∀ p ∈ find_path_between_ingredients g st q1 q2 d,
      (p.map (fun n => n.id)).Nodup) := by
  refine ⟨fun s e p hp => find_shortest_path_nodup g s e d p hp, ?_⟩
  intro p hp
  obtain ⟨s, _, e, _, hsp⟩ := find_path_mem g st q1 q2 d p hp
  exact find_shortest_path_nodup g s e d p hsp

/-- Witness for C7 on `c7Graph`: the BFS finds the two-hop path
apple – fruit salad – banana, and the theorem applies at depth 3. -/
theorem c7_witness :
    (1 ≤ 3 ∧
     _find_shortest_path c7Graph ⟨"a", .ingredient, "apple", []⟩
       ⟨"b", .ingredient, "banana", []⟩ 3 =
       some [⟨"a", .ingredient, "apple", []⟩, ⟨"d", .dish, "fruit salad", []⟩,
             ⟨"b", .ingredient, "banana", []⟩]) ∧
    ((∀ s e : GraphNode, s.id = e.id →
        _find_shortest_path c7Graph s e 3 = some [s]) ∧
     (∀ (s e : GraphNode) (p : List GraphNode),
        _find_shortest_path c7Graph s e 3 = some p →
        (∃ rest, p = s :: rest ∧ List.Chain (nbrRel c7Graph) s rest) ∧
        p.getLast?.map (fun n => n.id) = some e.id ∧
        p.length ≤ 3 + 1 ∧
        (∀ ns, IsWalkFrom c7Graph s.id ns e.id → p.length ≤ ns.length + 1)) ∧
     (∀ s e : GraphNode, _find_shortest_path c7Graph s e 3 = none →
        ¬ ∃ ns, IsWalkFrom c7Graph s.id ns e.id ∧ ns.length ≤ 3) ∧
     (∀ p ∈ find_path_between_ingredients c7Graph (build_indexes c7Graph)
          "apple" "banana" 3,
        ∃ s ∈ search_nodes c7Graph (build_indexes c7Graph) "apple"
            (some NodeType.ingredient) 10,
        ∃ e ∈ search_nodes c7Graph (build_indexes c7Graph) "banana"
            (some NodeType.ingredient) 10,
          _find_shortest_path c7Graph s e 3 = some p)) :=
  ⟨⟨by decide, by decide⟩,
    c7_shortest_path_bfs c7Graph (build_indexes c7Graph) "apple" "banana" 3
      (by decide)⟩

/-- Witness for C10 on `c7Graph`: the concrete returned path has
duplicate-free ids. -/
theorem c10_witness :
    (_find_shortest_path c7Graph ⟨"a", .ingredient, "apple", []⟩
       ⟨"b", .ingredient, "banana", []⟩ 3 =
       some [⟨"a", .ingredient, "apple", []⟩, ⟨"d", .dish, "fruit salad", []⟩,
             ⟨"b", .ingredient, "banana", []⟩]) ∧
    (([⟨"a", .ingredient, "apple", []⟩, ⟨"d", .dish, "fruit salad", []⟩,
       (⟨"b", .ingredient, "banana", []⟩ : GraphNode)].map (fun n => n.id)).Nodup) :=
  ⟨by decide,
    (c10_paths_simple c7Graph (build_indexes c7Graph) "apple" "banana" 3).1
      ⟨"a", .ingredient, "apple", []⟩ ⟨"b", .ingredient, "banana", []⟩ _
      (by decide)⟩

end GraphRAG
